import Mathlib

/-!
Verification of the scheduling core of the `entropy` task tracker.

The embedding models local wall-clock instants as integers counting
milliseconds from the local epoch (day 0 is a Thursday, as for the
JavaScript epoch 1970-01-01).  JavaScript `Date` mutators are embedded as
pure functions on this timeline: `setHours(h, m, 0, 0)` replaces the
time-of-day, `setDate(getDate() + k)` adds `k` calendar days (the model has
no daylight-saving jumps, so a calendar day is exactly 86400000 ms), and the
absolute `setDate(n)` / `setMonth(m)` mutators used by the monthly
recurrence branch are embedded through a proleptic Gregorian calendar.

Division and remainder on `Int` below are Lean's `/` and `%` (Euclidean),
which agree with floor division/remainder for the positive constant
divisors used here.
-/

namespace Entropy

/-- Milliseconds in one day. -/
def msPerDay : Int := 86400000

/-- Day number (local calendar date) of an instant. -/
def dayOf (t : Int) : Int := t / msPerDay

/-- Milliseconds elapsed since the start (midnight) of the instant's day. -/
def msOfDay (t : Int) : Int := t % msPerDay

/-- `Date.prototype.getHours`. -/
def getHours (t : Int) : Int := msOfDay t / 3600000

/-- `Date.prototype.getDay` : weekday, 0 = Sunday.  Day 0 of the local
epoch is a Thursday (weekday 4). -/
def getDay (t : Int) : Int := (dayOf t + 4) % 7

/-- `d.setHours(h, mi, 0, 0)` : same calendar day, time-of-day `h:mi`. -/
def setHours (t : Int) (h mi : Int) : Int :=
  dayOf t * msPerDay + h * 3600000 + mi * 60000

/-- `d.setDate(d.getDate() + k)` : shift by `k` calendar days. -/
def addDays (t : Int) (k : Int) : Int := t + k * msPerDay

/-- Result record of the `getDayBoundaries` helper
(`backend/routes/tasks.js`, also duplicated verbatim in the template and
analytics routers). -/
structure Boundaries where
  todayStart : Int
  tomorrowStart : Int
  dayAfterTomorrowStart : Int
deriving Repr, DecidableEq

/-- `getDayBoundaries(referenceDate)` : the 5 AM custom-day window.
Embeds the helper of `backend/routes/tasks.js` lines 8-29. -/
def getDayBoundaries (reference : Int) : Boundaries :=
  let t0 := setHours reference 5 0
  let todayStart := if getHours reference < 5 then addDays t0 (-1) else t0
  let tomorrowStart := addDays todayStart 1
  let dayAfterTomorrowStart := addDays tomorrowStart 1
  ⟨todayStart, tomorrowStart, dayAfterTomorrowStart⟩

/-! ### Proleptic Gregorian calendar

Needed only by the `monthly` branch of `calculateNextRun`
(`backend/models/Template.js`), whose `setDate(dayOfMonth)` and
`setMonth(getMonth() + interval)` mutators depend on real month lengths.
Day numbers are counted from the local epoch 1970-01-01 (day 0); years and
months follow JavaScript conventions (month 0 = January). -/

/-- JavaScript leap-year rule (JS `%` and Euclidean `%` agree on zero
tests). -/
def isLeap (y : Int) : Bool := (y % 4 == 0 && y % 100 != 0) || y % 400 == 0

/-- 1 on leap years, 0 otherwise. -/
def leapOf (y : Int) : Int := if isLeap y then 1 else 0

/-- Day number of Jan 1 of year `y` (719528 days separate year 0 from the
1970 epoch). -/
def daysBeforeYear (y : Int) : Int :=
  365 * y + (y + 3) / 4 - (y + 99) / 100 + (y + 399) / 400 - 719528

/-- Days from Jan 1 to the first of month `m` (0 = January) in a year with
leap indicator `L`, for `m` in `[0, 11]`. -/
def daysBeforeMonth (L : Int) (m : Int) : Int :=
  if m ≤ 0 then 0
  else if m = 1 then 31
  else if m = 2 then 59 + L
  else if m = 3 then 90 + L
  else if m = 4 then 120 + L
  else if m = 5 then 151 + L
  else if m = 6 then 181 + L
  else if m = 7 then 212 + L
  else if m = 8 then 243 + L
  else if m = 9 then 273 + L
  else if m = 10 then 304 + L
  else 334 + L

/-- Month (0-based) containing day-of-year `doy` in a year with leap
indicator `L`. -/
def monthOfDoy (L : Int) (doy : Int) : Int :=
  if doy < 31 then 0
  else if doy < 59 + L then 1
  else if doy < 90 + L then 2
  else if doy < 120 + L then 3
  else if doy < 151 + L then 4
  else if doy < 181 + L then 5
  else if doy < 212 + L then 6
  else if doy < 243 + L then 7
  else if doy < 273 + L then 8
  else if doy < 304 + L then 9
  else if doy < 334 + L then 10
  else 11

/-- The calendar year containing day `z`: a linear estimate corrected by at
most one step either way. -/
def yearOfDay (z : Int) : Int :=
  let y0 := (400 * z + 287811200) / 146097
  if z < daysBeforeYear y0 then y0 - 1
  else if z < daysBeforeYear (y0 + 1) then y0
  else if z < daysBeforeYear (y0 + 2) then y0 + 1
  else y0 + 2

/-- Linear month index (12·year + month) of the first day of month `lm`. -/
def firstOfLm (lm : Int) : Int :=
  daysBeforeYear (lm / 12) + daysBeforeMonth (leapOf (lm / 12)) (lm % 12)

/-- Linear month index containing day `z`. -/
def lmOfDay (z : Int) : Int :=
  12 * yearOfDay z +
    monthOfDoy (leapOf (yearOfDay z)) (z - daysBeforeYear (yearOfDay z))


def setDateAbs (t n : Int) : Int :=
  (firstOfLm (lmOfDay (dayOf t)) + (n - 1)) * msPerDay + msOfDay t

/-- `d.setMonth(d.getMonth() + k)` : shift by `k` linear months, keeping
the (0-based) day offset within the month, rolling over on overflow. -/
def setMonthRel (t k : Int) : Int :=
  (firstOfLm (lmOfDay (dayOf t) + k) + (dayOf t - firstOfLm (lmOfDay (dayOf t))))
      * msPerDay + msOfDay t

/-- Recurrence type enumeration of the template schema. -/
inductive RecType where
  | daily | weekly | monthly | custom
deriving Repr, DecidableEq

/-- `recurrence.time` sub-document. -/
structure RecTime where
  hour : Int
  minute : Int
deriving Repr, DecidableEq

/-- `recurrence` sub-document of the template schema.  `daysOfWeek` and
`dayOfMonth` are optional; `none` models an absent (undefined) field. -/
structure Recurrence where
  type : RecType
  interval : Int
  daysOfWeek : Option (List Int)
  dayOfMonth : Option Int
  time : RecTime
deriving Repr, DecidableEq

/-- JS `x || d` for a numeric field: `undefined` and `0` are falsy. -/
def jsOrInt (o : Option Int) (d : Int) : Int :=
  match o with
  | none => d
  | some v => if v = 0 then d else v

/-- `templateSchema.methods.calculateNextRun`
(`backend/models/Template.js` lines 105-158), with the wall clock
injected as the `now` argument.  `daysOfWeek || [1]` only defaults when
the field is undefined, since a stored (even empty) array is truthy. -/
def calculateNextRun (r : Recurrence) (now : Int) : Int :=
  let next := setHours now r.time.hour r.time.minute
  match r.type with
  | .daily => if next ≤ now then addDays next r.interval else next
  | .weekly =>
      let targetDays := r.daysOfWeek.getD [1]
      match (List.range 14).find? (fun (i : Nat) =>
          targetDays.contains (getDay (addDays next (i : Int)))
            && decide (now < addDays next (i : Int))) with
      | some i => addDays next (i : Int)
      | none => addDays next (7 * r.interval)
  | .monthly =>
      let targetDay := jsOrInt r.dayOfMonth 1
      let next1 := setDateAbs next targetDay
      if next1 ≤ now then setDateAbs (setMonthRel next1 r.interval) targetDay
      else next1
  | .custom => if next ≤ now then addDays next r.interval else next


/-! ### Task store model

A `Task` mirrors the mongoose task schema (`backend/models/Task.js`):
`moved` and `deleted` default to `false`, `completedAt` and
`originalTaskId` are optional.  The document store is a list of tasks in
natural (insertion) order together with the next fresh id; `findOne`
returns the first match in list order, `findByIdAndUpdate` rewrites the
matching document in place, `deleteMany` filters documents out. -/

structure Task where
  id : Nat
  user : Nat
  title : String
  description : String
  priority : Int
  category : Nat
  date : Int
  completed : Bool
  completedAt : Option Int
  moved : Bool
  deleted : Bool
  originalTaskId : Option Nat
deriving Repr, DecidableEq

structure Store where
  tasks : List Task
  nextId : Nat
deriving Repr, DecidableEq

/-- Well-formed store: ids are fresh-bounded and pairwise distinct. -/
def WF (s : Store) : Prop :=
  (∀ t ∈ s.tasks, t.id < s.nextId) ∧ (s.tasks.map Task.id).Nodup

/-- `Task.findByIdAndUpdate(id, fields)`. -/
def updateTask (tasks : List Task) (id : Nat) (f : Task → Task) : List Task :=
  tasks.map (fun t => if t.id = id then f t else t)

/-- Filter of the `/move-to-tomorrow` source query: today's window, not
completed, not moved, not deleted, owned by the caller. -/
def uncompletedPred (owner : Nat) (b : Boundaries) (t : Task) : Bool :=
  t.user == owner && decide (b.todayStart ≤ t.date)
    && decide (t.date < b.tomorrowStart)
    && !t.completed && !t.moved && !t.deleted

def todayUncompleted (s : Store) (owner : Nat) (b : Boundaries) : List Task :=
  s.tasks.filter (uncompletedPred owner b)

/-- The `/move-to-tomorrow` duplicate check: a not-deleted task with the
same title and category in tomorrow's window (`moved` is not filtered). -/
def tomorrowDupPred (owner : Nat) (b : Boundaries) (title : String)
    (cat : Nat) (u : Task) : Bool :=
  u.user == owner && u.title == title && u.category == cat
    && decide (b.tomorrowStart ≤ u.date)
    && decide (u.date < addDays b.tomorrowStart 1)
    && !u.deleted

/-- The new record `/move-to-tomorrow` inserts for a source task. -/
def copyTask (st : Store) (owner : Nat) (b : Boundaries) (src : Task) : Task :=
  { id := st.nextId, user := owner, title := src.title,
    description := src.description, priority := src.priority,
    category := src.category, date := b.tomorrowStart,
    completed := false, completedAt := none, moved := false,
    deleted := false, originalTaskId := some src.id }

structure MoveResult where
  store : Store
  newTasks : List Task
  movedTaskIds : List Nat
deriving Repr, DecidableEq

/-- The `for (let task of uncompletedTasks)` loop of `/move-to-tomorrow`
(`backend/routes/tasks.js` lines 241-271): look for a live duplicate in
tomorrow's window against the current store, insert a copy when there is
none, and mark the source `moved` in either case. -/
def moveLoop (owner : Nat) (b : Boundaries) :
    List Task → Store → List Task → List Nat → MoveResult
  | [], st, newAcc, idsAcc => ⟨st, newAcc, idsAcc⟩
  | src :: rest, st, newAcc, idsAcc =>
      match st.tasks.any (tomorrowDupPred owner b src.title src.category) with
      | true =>
          moveLoop owner b rest
            ⟨updateTask st.tasks src.id (fun u => { u with moved := true }),
              st.nextId⟩
            newAcc (idsAcc ++ [src.id])
      | false =>
          moveLoop owner b rest
            ⟨updateTask (st.tasks ++ [copyTask st owner b src]) src.id
                (fun u => { u with moved := true }),
              st.nextId + 1⟩
            (newAcc ++ [copyTask st owner b src]) (idsAcc ++ [src.id])

/-- `POST /move-to-tomorrow` (`backend/routes/tasks.js` lines 215-285). -/
def moveToTomorrow (s : Store) (owner : Nat) (now : Int) : MoveResult :=
  let b := getDayBoundaries now
  moveLoop owner b (todayUncompleted s owner b) s [] []

/-- Spec-side description of the effect of `/move-to-tomorrow` on a record
already present: the `moved` flag is turned on for processed sources and
nothing else (in particular not `date`) changes. -/
def markMoved (ids : List Nat) (t : Task) : Task :=
  if t.id ∈ ids then { t with moved := true } else t

inductive MBOutcome where
  | notFound | invalidOperation | success
deriving Repr, DecidableEq

/-- The `deleteMany` filter of `/move-back-to-today/:id`: same owner,
title and category, dated in today's window, not the moved task itself —
with no condition on `completed`, `moved` or `deleted`. -/
def purgePred (owner : Nat) (b : Boundaries) (title : String) (cat : Nat)
    (id : Nat) (u : Task) : Bool :=
  u.user == owner && u.title == title && u.category == cat
    && decide (b.todayStart ≤ u.date) && decide (u.date < b.tomorrowStart)
    && u.id != id

/-- `POST /move-back-to-today/:id` (`backend/routes/tasks.js` lines
308-359).  On failure the store is returned untouched, as the route
answers before performing any write. -/
def moveBackToToday (s : Store) (owner id : Nat) (now : Int) :
    MBOutcome × Store :=
  let b := getDayBoundaries now
  match s.tasks.find? (fun t => t.id == id && t.user == owner) with
  | none => (.notFound, s)
  | some task =>
      if b.tomorrowStart ≤ task.date ∧ task.date < addDays b.tomorrowStart 1 then
        let remaining := s.tasks.filter
          (fun u => !(purgePred owner b task.title task.category id u))
        (.success,
          ⟨updateTask remaining id
            (fun u => { u with date := b.todayStart, originalTaskId := none }),
          s.nextId⟩)
      else (.invalidOperation, s)

/-- Filter describing the tasks a `/today` query would show for one
(title, category) key: owned, in today's window, not moved, not deleted. -/
def visibleTodayKey (owner : Nat) (b : Boundaries) (title : String)
    (cat : Nat) (u : Task) : Bool :=
  u.user == owner && u.title == title && u.category == cat
    && decide (b.todayStart ≤ u.date) && decide (u.date < b.tomorrowStart)
    && !u.moved && !u.deleted

inductive ReorderResult where
  | validationError
  | ok (store : Store)
deriving Repr, DecidableEq

/-- Priority assigned by `/reorder-tasks` to the task at 0-based index
`i` : `Math.min(i + 1, 3)`. -/
def reorderPriority (i : Nat) : Int := min ((i : Int) + 1) 3

def applyReorder (tasks : List Task) (ids : List Nat) : List Task :=
  ids.enum.foldl
    (fun acc p => updateTask acc p.2 (fun u => { u with priority := reorderPriority p.1 }))
    tasks

/-- `POST /reorder-tasks` (`backend/routes/tasks.js` lines 364-420):
reject an empty sequence, reject when the tasks found for the given ids
(owned by the caller) do not number exactly as many as the ids, then
assign `min(index+1, 3)` in order. -/
def reorderTasks (s : Store) (owner : Nat) (orderedTaskIds : List Nat) :
    ReorderResult :=
  if orderedTaskIds.isEmpty then .validationError
  else
    let found := s.tasks.filter
      (fun t => orderedTaskIds.contains t.id && t.user == owner)
    if found.length ≠ orderedTaskIds.length then .validationError
    else .ok ⟨applyReorder s.tasks orderedTaskIds, s.nextId⟩

/-- The update document of `PUT /:id` : absent fields are `none`. -/
structure TaskUpdates where
  title : Option String
  description : Option String
  priority : Option Int
  category : Option Nat
  date : Option Int
  completed : Option Bool
  completedAt : Option Int
deriving Repr, DecidableEq

/-- `if (updates.completed && !updates.completedAt) updates.completedAt =
new Date()` (`backend/routes/tasks.js` lines 138-140). -/
def stampCompleted (u : TaskUpdates) (now : Int) : TaskUpdates :=
  if u.completed == some true && u.completedAt.isNone then
    { u with completedAt := some now }
  else u

/-- `findOneAndUpdate` semantics: each present field of the update
document replaces the stored one. -/
def applyUpdates (t : Task) (u : TaskUpdates) : Task :=
  { t with
    title := u.title.getD t.title,
    description := u.description.getD t.description,
    priority := u.priority.getD t.priority,
    category := u.category.getD t.category,
    date := u.date.getD t.date,
    completed := u.completed.getD t.completed,
    completedAt :=
      match u.completedAt with
      | some v => some v
      | none => t.completedAt }

inductive UpdateResult where
  | invalidCategory
  | notFound
  | ok (store : Store) (task : Task)
deriving Repr, DecidableEq

/-- `PUT /:id` (`backend/routes/tasks.js` lines 133-169): stamp
`completedAt` when completing without a supplied timestamp, validate the
category when one is given (`validCats` lists the caller's active
category ids), then update the matching document and return it. -/
def updateTaskRoute (s : Store) (validCats : List Nat) (owner id : Nat)
    (u0 : TaskUpdates) (now : Int) : UpdateResult :=
  let u := stampCompleted u0 now
  let catOk := match u.category with
    | none => true
    | some c => validCats.contains c
  if !catOk then .invalidCategory
  else
    match s.tasks.find? (fun t => t.id == id && t.user == owner) with
    | none => .notFound
    | some t =>
        .ok ⟨updateTask s.tasks id (fun x => applyUpdates x u), s.nextId⟩
          (applyUpdates t u)

/-! ### Template store model (`backend/models/Template.js` and the
template router). -/

structure TaskTemplate where
  title : String
  description : String
  priority : Int
deriving Repr, DecidableEq

structure Template where
  id : Nat
  user : Nat
  name : String
  category : Nat
  taskTemplate : TaskTemplate
  recurrence : Recurrence
  isActive : Bool
  nextRun : Int
  lastRun : Option Int
  createdTasksCount : Int
deriving Repr, DecidableEq

/-- Mongoose validation run by `task.save()` : `title` is required (a
trimmed empty string fails `required`), `priority` must lie in `[1, 3]`.
A failing save throws, which `/process-pending` catches per template. -/
def taskSaveValid (t : Task) : Bool :=
  !(t.title == "") && decide (1 ≤ t.priority) && decide (t.priority ≤ 3)

/-- Validity of the task a template would materialise, in terms of the
template's own fields (`newTaskFromTemplate` copies them verbatim). -/
def templateTaskValid (tmpl : Template) : Bool :=
  !(tmpl.taskTemplate.title == "") && decide (1 ≤ tmpl.taskTemplate.priority)
    && decide (tmpl.taskTemplate.priority ≤ 3)

/-- Selection filter of `/process-pending`: active templates of the
caller whose `nextRun` is due. -/
def templateDue (owner : Nat) (now : Int) (t : Template) : Bool :=
  t.user == owner && t.isActive && decide (t.nextRun ≤ now)

/-- Duplicate check of `/process-pending`: a not-deleted task with the
template's title and category already dated in today's window. -/
def todayDupPred (owner : Nat) (b : Boundaries) (title : String) (cat : Nat)
    (u : Task) : Bool :=
  u.user == owner && u.title == title && u.category == cat
    && decide (b.todayStart ≤ u.date) && decide (u.date < b.tomorrowStart)
    && !u.deleted

/-- Schedule advance performed in both the created and the skipped
branch: `lastRun = now`, `nextRun = calculateNextRun()`,
`createdTasksCount += 1`. -/
def advanceTemplate (tmpl : Template) (now : Int) : Template :=
  { tmpl with
    lastRun := some now,
    nextRun := calculateNextRun tmpl.recurrence now,
    createdTasksCount := tmpl.createdTasksCount + 1 }

def updateTemplate (ts : List Template) (id : Nat) (f : Template → Template) :
    List Template :=
  ts.map (fun t => if t.id = id then f t else t)

/-- The task `/process-pending` materialises from a due template, dated
to today's window start. -/
def newTaskFromTemplate (st : Store) (owner : Nat) (b : Boundaries)
    (tmpl : Template) : Task :=
  { id := st.nextId, user := owner, title := tmpl.taskTemplate.title,
    description := tmpl.taskTemplate.description,
    priority := tmpl.taskTemplate.priority, category := tmpl.category,
    date := b.todayStart, completed := false, completedAt := none,
    moved := false, deleted := false, originalTaskId := none }

inductive PPStatus where
  | created | skipped | errored
deriving Repr, DecidableEq

structure PPResult where
  store : Store
  templates : List Template
  results : List (String × PPStatus)
deriving Repr, DecidableEq

/-- The `for (const template of pendingTemplates)` loop of
`/process-pending` (template router lines 237-289): skip when a live
duplicate exists in today's window, otherwise save a new task (a failing
save is caught and reported as an error status for that template alone);
in the created and skipped branches the template's schedule is advanced
and saved. -/
def ppLoop (owner : Nat) (now : Int) (b : Boundaries) :
    List Template → Store → List Template → List (String × PPStatus) → PPResult
  | [], st, tms, acc => ⟨st, tms, acc⟩
  | tmpl :: rest, st, tms, acc =>
      match st.tasks.any (todayDupPred owner b tmpl.taskTemplate.title tmpl.category) with
      | true =>
          ppLoop owner now b rest st
            (updateTemplate tms tmpl.id (fun _ => advanceTemplate tmpl now))
            (acc ++ [(tmpl.name, PPStatus.skipped)])
      | false =>
          match taskSaveValid (newTaskFromTemplate st owner b tmpl) with
          | true =>
              ppLoop owner now b rest
                ⟨st.tasks ++ [newTaskFromTemplate st owner b tmpl], st.nextId + 1⟩
                (updateTemplate tms tmpl.id (fun _ => advanceTemplate tmpl now))
                (acc ++ [(tmpl.name, PPStatus.created)])
          | false =>
              ppLoop owner now b rest st tms (acc ++ [(tmpl.name, PPStatus.errored)])

/-- `POST /process-pending` (template router lines 224-299), wall clock
injected as `now`. -/
def processPending (s : Store) (templates : List Template) (owner : Nat)
    (now : Int) : PPResult :=
  let b := getDayBoundaries now
  ppLoop owner now b (templates.filter (templateDue owner now)) s templates []


/-- Concrete stores used to exercise the route embeddings on explicit
inputs. -/
def cexStore : Store :=
  ⟨[⟨1, 7, "a", "", 2, 3, 0, false, none, false, false, none⟩], 2⟩

def wStoreR : Store :=
  ⟨[⟨10, 7, "a", "", 2, 3, 0, false, none, false, false, none⟩,
    ⟨11, 7, "b", "", 2, 3, 0, false, none, false, false, none⟩,
    ⟨12, 7, "c", "", 1, 3, 0, false, none, false, false, none⟩,
    ⟨13, 7, "d", "", 3, 3, 0, false, none, false, false, none⟩], 14⟩

/-- A store with one active uncompleted task in the window of day 6
(instant 540000000 = day 6 at 06:00, so todayStart = 536400000 and
tomorrowStart = 622800000). -/
def rtStore : Store :=
  ⟨[⟨1, 7, "a", "", 2, 3, 536400000, false, none, false, false, none⟩], 2⟩

def rtTask : Task :=
  ⟨1, 7, "a", "", 2, 3, 536400000, false, none, false, false, none⟩

def rtCopy : Task :=
  ⟨2, 7, "a", "", 2, 3, 622800000, false, none, false, false, some 1⟩

/-- A store with a tomorrow-window task (id 1) and a completed,
soft-deleted today-window record (id 2) sharing its title and category. -/
def pStore : Store :=
  ⟨[⟨1, 7, "a", "", 2, 3, 622800000, false, none, false, false, some 2⟩,
    ⟨2, 7, "a", "", 2, 3, 536400000, true, some 540000000, false, true, none⟩],
   3⟩

def pTask : Task :=
  ⟨1, 7, "a", "", 2, 3, 622800000, false, none, false, false, some 2⟩

def pDup : Task :=
  ⟨2, 7, "a", "", 2, 3, 536400000, true, some 540000000, false, true, none⟩

/-- An update payload setting only `completed = true`. -/
def wUpd : TaskUpdates :=
  ⟨none, none, none, none, none, some true, none⟩

/-- A daily template due at instant 540000000. -/
def wTemplate : Template :=
  ⟨1, 7, "morning", 3, ⟨"stretch", "", 2⟩,
    ⟨RecType.daily, 1, none, none, ⟨5, 0⟩⟩, true, 540000000, none, 0⟩

/-! ### Theorems -/


example : (getDayBoundaries (6 * 86400000 + 6 * 3600000)).todayStart
    = 6 * 86400000 + 5 * 3600000 := by decide

example : (getDayBoundaries (6 * 86400000 + 4 * 3600000)).todayStart
    = 5 * 86400000 + 5 * 3600000 := by decide

/-- C1: for every reference instant, `getDayBoundaries` places `todayStart`
at 05:00:00.000 of the reference's calendar date when the reference's hour
is ≥ 5, and at 05:00:00.000 of the previous calendar date when the hour is
< 5; and `tomorrowStart - todayStart` is exactly 24 hours (86400000 ms).
Being a plain function of its argument, it is pure and deterministic. -/
theorem getDayBoundaries_spec (reference : Int) :
    (getDayBoundaries reference).todayStart
      = (if getHours reference < 5 then dayOf reference - 1 else dayOf reference)
          * 86400000 + 5 * 3600000
    ∧ (getDayBoundaries reference).tomorrowStart
        - (getDayBoundaries reference).todayStart = 24 * 3600000 := by
  unfold getDayBoundaries setHours addDays dayOf msPerDay
  dsimp only
  constructor
  · split <;> ring
  · split <;> ring

example : lmOfDay 0 = 1970 * 12 := by decide
example : firstOfLm (1970 * 12) = 0 := by decide
example : lmOfDay 59 = 1970 * 12 + 2 := by decide
example : lmOfDay 789 = 1972 * 12 + 1 := by decide
example : firstOfLm (1972 * 12 + 2) = 790 := by decide

theorem leapOf_emod (y : Int) :
    leapOf y = if (y % 4 = 0 ∧ ¬ y % 100 = 0) ∨ y % 400 = 0 then 1 else 0 := by
  unfold leapOf isLeap
  split
  · rename_i h
    simp only [Bool.or_eq_true, Bool.and_eq_true, beq_iff_eq, bne_iff_ne] at h
    split
    · rfl
    · rename_i h2; exact absurd h h2
  · rename_i h
    simp only [Bool.or_eq_true, Bool.and_eq_true, beq_iff_eq, bne_iff_ne] at h
    split
    · rename_i h2; exact absurd h2 h
    · rfl

theorem daysBeforeYear_succ (y : Int) :
    daysBeforeYear (y + 1) = daysBeforeYear y + 365 + leapOf y := by
  rw [leapOf_emod]
  unfold daysBeforeYear
  split <;> omega

theorem leapOf_bounds (y : Int) : 0 ≤ leapOf y ∧ leapOf y ≤ 1 := by
  rw [leapOf_emod]; split <;> omega

theorem dby_bounds (y : Int) :
    146097 * y - 287813000 ≤ 400 * daysBeforeYear y ∧
    400 * daysBeforeYear y ≤ 146097 * y - 287809600 := by
  unfold daysBeforeYear
  omega

theorem yearOfDay_bracket (z : Int) :
    daysBeforeYear (yearOfDay z) ≤ z ∧ z < daysBeforeYear (yearOfDay z + 1) := by
  have h0 := dby_bounds ((400 * z + 287811200) / 146097 - 1)
  have h1 := dby_bounds ((400 * z + 287811200) / 146097)
  have h2 := dby_bounds ((400 * z + 287811200) / 146097 + 1)
  have h3 := dby_bounds ((400 * z + 287811200) / 146097 + 2)
  have h4 := dby_bounds ((400 * z + 287811200) / 146097 + 3)
  have s0 : (400 * z + 287811200) / 146097 - 1 + 1
      = (400 * z + 287811200) / 146097 := by ring
  have s1 : (400 * z + 287811200) / 146097 + 1 + 1
      = (400 * z + 287811200) / 146097 + 2 := by ring
  have s2 : (400 * z + 287811200) / 146097 + 2 + 1
      = (400 * z + 287811200) / 146097 + 3 := by ring
  unfold yearOfDay
  dsimp only
  split
  · rw [s0]; omega
  · split
    · omega
    · split
      · rw [s1]; omega
      · rw [s2]; omega

theorem monthOfDoy_bracket (L doy : Int) (hL : 0 ≤ L) (h0 : 0 ≤ doy) :
    daysBeforeMonth L (monthOfDoy L doy) ≤ doy ∧
    0 ≤ monthOfDoy L doy ∧ monthOfDoy L doy ≤ 11 ∧
    (monthOfDoy L doy ≤ 10 →
      doy < daysBeforeMonth L (monthOfDoy L doy + 1)) := by
  unfold monthOfDoy daysBeforeMonth
  omega

theorem firstOfLm_decomp (y m : Int) (h0 : 0 ≤ m) (h1 : m < 12) :
    firstOfLm (12 * y + m)
      = daysBeforeYear y + daysBeforeMonth (leapOf y) m := by
  unfold firstOfLm
  have e1 : (12 * y + m) / 12 = y := by omega
  have e2 : (12 * y + m) % 12 = m := by omega
  rw [e1, e2]

theorem daysBeforeMonth_zero (L : Int) : daysBeforeMonth L 0 = 0 := by
  unfold daysBeforeMonth
  omega

theorem daysBeforeMonth_ub (L m : Int) (hL : 0 ≤ L) :
    daysBeforeMonth L m ≤ 334 + L := by
  unfold daysBeforeMonth
  omega

theorem lmOfDay_bracket (z : Int) :
    firstOfLm (lmOfDay z) ≤ z ∧ z < firstOfLm (lmOfDay z + 1) := by
  obtain ⟨hy1, hy2⟩ := yearOfDay_bracket z
  have hsucc := daysBeforeYear_succ (yearOfDay z)
  have hL := leapOf_bounds (yearOfDay z)
  have hmb := monthOfDoy_bracket (leapOf (yearOfDay z))
      (z - daysBeforeYear (yearOfDay z)) hL.1 (by omega)
  unfold lmOfDay
  rcases Int.lt_or_le
      (monthOfDoy (leapOf (yearOfDay z)) (z - daysBeforeYear (yearOfDay z)))
      11 with hm | hm
  · constructor
    · rw [firstOfLm_decomp _ _ hmb.2.1 (by omega)]
      omega
    · have e : 12 * yearOfDay z +
          monthOfDoy (leapOf (yearOfDay z)) (z - daysBeforeYear (yearOfDay z)) + 1
          = 12 * yearOfDay z +
            (monthOfDoy (leapOf (yearOfDay z)) (z - daysBeforeYear (yearOfDay z)) + 1) := by
        ring
      rw [e, firstOfLm_decomp _ _ (by omega) (by omega)]
      have := hmb.2.2.2 (by omega)
      omega
  · have hm11 : monthOfDoy (leapOf (yearOfDay z)) (z - daysBeforeYear (yearOfDay z))
        = 11 := by omega
    rw [hm11]
    constructor
    · rw [firstOfLm_decomp _ _ (by omega) (by omega)]
      have := hmb.1
      rw [hm11] at this
      omega
    · have e : 12 * yearOfDay z + 11 + 1 = 12 * (yearOfDay z + 1) + 0 := by ring
      rw [e, firstOfLm_decomp _ _ (by omega) (by omega),
        daysBeforeMonth_zero]
      omega

theorem daysBeforeMonth_step (L m : Int) (hL : 0 ≤ L) (h0 : 0 ≤ m)
    (h1 : m ≤ 10) : daysBeforeMonth L m < daysBeforeMonth L (m + 1) := by
  unfold daysBeforeMonth
  omega

theorem firstOfLm_step (lm : Int) : firstOfLm lm < firstOfLm (lm + 1) := by
  have hdec : lm = 12 * (lm / 12) + lm % 12 := by omega
  have hr0 : 0 ≤ lm % 12 := by omega
  have hr1 : lm % 12 < 12 := by omega
  have hL := leapOf_bounds (lm / 12)
  rw [hdec]
  rcases Int.lt_or_le (lm % 12) 11 with hm | hm
  · have e : 12 * (lm / 12) + lm % 12 + 1 = 12 * (lm / 12) + (lm % 12 + 1) := by
      ring
    rw [firstOfLm_decomp _ _ hr0 hr1, e, firstOfLm_decomp _ _ (by omega) (by omega)]
    have := daysBeforeMonth_step (leapOf (lm / 12)) (lm % 12) hL.1 hr0 (by omega)
    omega
  · have hm11 : lm % 12 = 11 := by omega
    have e : 12 * (lm / 12) + lm % 12 + 1 = 12 * (lm / 12 + 1) + 0 := by
      rw [hm11]; ring
    rw [firstOfLm_decomp _ _ hr0 hr1, e, firstOfLm_decomp _ _ (by omega) (by omega),
      daysBeforeMonth_zero, hm11]
    have := daysBeforeMonth_ub (leapOf (lm / 12)) 11 hL.1
    have := daysBeforeYear_succ (lm / 12)
    omega

theorem firstOfLm_add_nat (a : Int) (n : Nat) :
    firstOfLm a ≤ firstOfLm (a + n) := by
  induction n with
  | zero => simp
  | succ k ih =>
      have e : a + ((k : Int) + 1) = (a + k) + 1 := by ring
      have hcalc : firstOfLm a < firstOfLm (a + ((k : Nat) + 1 : Nat)) :=
        calc firstOfLm a ≤ firstOfLm (a + k) := ih
          _ < firstOfLm (a + k + 1) := firstOfLm_step _
          _ = firstOfLm (a + ((k : Nat) + 1 : Nat)) := by push_cast; rw [e]
      exact le_of_lt hcalc

theorem firstOfLm_mono {a b : Int} (h : a ≤ b) :
    firstOfLm a ≤ firstOfLm b := by
  have e : b = a + ((b - a).toNat : Int) := by omega
  rw [e]
  exact firstOfLm_add_nat a (b - a).toNat

theorem le_lmOfDay {z lm : Int} (h : firstOfLm lm ≤ z) : lm ≤ lmOfDay z := by
  by_contra hc
  push_neg at hc
  have h1 : lmOfDay z + 1 ≤ lm := by omega
  have h2 := firstOfLm_mono h1
  have h3 := (lmOfDay_bracket z).2
  omega

/-! ### RecurrenceEngine (`backend/models/Template.js`) -/

/-- `d.setDate(n)` : absolute day-of-month mutator (JS semantics: first of
the current month plus `n - 1` days, so out-of-range `n` rolls over). -/

example :
    calculateNextRun ⟨.daily, 1, none, none, ⟨5, 0⟩⟩ (6 * 86400000 + 19800000)
      = 7 * 86400000 + 18000000 := by decide

example :
    calculateNextRun ⟨.weekly, 1, some [1], none, ⟨5, 0⟩⟩
        (6 * 86400000 + 43200000)
      = 11 * 86400000 + 18000000 := by decide

example :
    calculateNextRun ⟨.monthly, 1, none, some 31, ⟨5, 0⟩⟩
        (33 * 86400000 + 43200000)
      = 61 * 86400000 + 18000000 := by decide

theorem dayOf_linear (a b : Int) (h0 : 0 ≤ b) (h1 : b < 86400000) :
    dayOf (a * 86400000 + b) = a := by
  unfold dayOf msPerDay
  omega

theorem msOfDay_linear (a b : Int) (h0 : 0 ≤ b) (h1 : b < 86400000) :
    msOfDay (a * 86400000 + b) = b := by
  unfold msOfDay msPerDay
  omega

theorem setHours_form (t h mi : Int) :
    setHours t h mi = dayOf t * 86400000 + (h * 3600000 + mi * 60000) := by
  unfold setHours msPerDay
  ring

theorem setDateAbs_form (a b n : Int) (h0 : 0 ≤ b) (h1 : b < 86400000) :
    setDateAbs (a * 86400000 + b) n
      = (firstOfLm (lmOfDay a) + (n - 1)) * 86400000 + b := by
  unfold setDateAbs
  rw [dayOf_linear a b h0 h1, msOfDay_linear a b h0 h1]
  unfold msPerDay
  ring

theorem setMonthRel_form (a b k : Int) (h0 : 0 ≤ b) (h1 : b < 86400000) :
    setMonthRel (a * 86400000 + b) k
      = (firstOfLm (lmOfDay a + k) + (a - firstOfLm (lmOfDay a)))
          * 86400000 + b := by
  unfold setMonthRel
  rw [dayOf_linear a b h0 h1, msOfDay_linear a b h0 h1]
  unfold msPerDay
  ring

/-- C7: for every template with a valid recurrence (any of the four types,
`interval ≥ 1`, schema-valid time fields, `dayOfMonth ≥ 1` when present)
and every reference instant `now`, `calculateNextRun` returns an instant
strictly later than `now`, across all four branches including the weekly
14-day-scan fallback and the monthly day-of-month advance.  (The embedded
function is pure, so it cannot mutate the template.) -/
theorem calculateNextRun_future (r : Recurrence) (now : Int)
    (hi : 1 ≤ r.interval)
    (hh0 : 0 ≤ r.time.hour) (hh1 : r.time.hour ≤ 23)
    (hmi0 : 0 ≤ r.time.minute) (hmi1 : r.time.minute ≤ 59)
    (hd : ∀ d, r.dayOfMonth = some d → 1 ≤ d) :
    now < calculateNextRun r now := by
  obtain ⟨D, M, rfl, hM0, hM1⟩ :
      ∃ D M, now = D * 86400000 + M ∧ 0 ≤ M ∧ M < 86400000 :=
    ⟨now / 86400000, now % 86400000, by omega, by omega, by omega⟩
  have htod0 : 0 ≤ r.time.hour * 3600000 + r.time.minute * 60000 := by omega
  have htod1 : r.time.hour * 3600000 + r.time.minute * 60000 < 86400000 := by
    omega
  have hsh : setHours (D * 86400000 + M) r.time.hour r.time.minute
      = D * 86400000 + (r.time.hour * 3600000 + r.time.minute * 60000) := by
    rw [setHours_form, dayOf_linear D M hM0 hM1]
  unfold calculateNextRun
  cases hty : r.type with
  | daily =>
      dsimp only
      rw [hsh]
      unfold addDays msPerDay
      omega
  | custom =>
      dsimp only
      rw [hsh]
      unfold addDays msPerDay
      omega
  | weekly =>
      dsimp only
      rw [hsh]
      split
      · rename_i i heq
        have hp := List.find?_some heq
        rw [Bool.and_eq_true] at hp
        exact of_decide_eq_true hp.2
      · unfold addDays msPerDay
        omega
  | monthly =>
      dsimp only
      rw [hsh]
      have htd : 1 ≤ jsOrInt r.dayOfMonth 1 := by
        cases hdm : r.dayOfMonth with
        | none => simp [jsOrInt]
        | some d =>
            have := hd d hdm
            simp only [jsOrInt]
            split <;> omega
      set td := jsOrInt r.dayOfMonth 1 with htddef
      rw [setDateAbs_form D _ td htod0 htod1]
      have hbrD := lmOfDay_bracket D
      have hbr1 := lmOfDay_bracket (firstOfLm (lmOfDay D) + (td - 1))
      have hlm1 : lmOfDay D ≤ lmOfDay (firstOfLm (lmOfDay D) + (td - 1)) :=
        le_lmOfDay (by omega)
      have hmono1 : firstOfLm (lmOfDay D + 1)
          ≤ firstOfLm (lmOfDay (firstOfLm (lmOfDay D) + (td - 1)) + r.interval) :=
        firstOfLm_mono (by omega)
      rw [setMonthRel_form _ _ r.interval htod0 htod1,
        setDateAbs_form _ _ td htod0 htod1]
      have hbr2 := lmOfDay_bracket
        (firstOfLm (lmOfDay (firstOfLm (lmOfDay D) + (td - 1)) + r.interval)
          + (firstOfLm (lmOfDay D) + (td - 1)
              - firstOfLm (lmOfDay (firstOfLm (lmOfDay D) + (td - 1)))))
      have hlm2 : lmOfDay D + 1 ≤ lmOfDay
          (firstOfLm (lmOfDay (firstOfLm (lmOfDay D) + (td - 1)) + r.interval)
            + (firstOfLm (lmOfDay D) + (td - 1)
                - firstOfLm (lmOfDay (firstOfLm (lmOfDay D) + (td - 1))))) :=
        le_lmOfDay (by omega)
      have hmono2 : firstOfLm (lmOfDay D + 1) ≤ firstOfLm (lmOfDay
          (firstOfLm (lmOfDay (firstOfLm (lmOfDay D) + (td - 1)) + r.interval)
            + (firstOfLm (lmOfDay D) + (td - 1)
                - firstOfLm (lmOfDay (firstOfLm (lmOfDay D) + (td - 1)))))) :=
        firstOfLm_mono hlm2
      omega

/-- Witness for `calculateNextRun_future` at a concrete daily template and
instant. -/
theorem calculateNextRun_future_witness :
    (6 * 86400000 + 19800000 : Int)
      < calculateNextRun ⟨.daily, 1, none, none, ⟨5, 0⟩⟩ (6 * 86400000 + 19800000) :=
  calculateNextRun_future ⟨.daily, 1, none, none, ⟨5, 0⟩⟩ (6 * 86400000 + 19800000)
    (by decide) (by decide) (by decide) (by decide) (by decide)
    (fun d h => by simp at h)

theorem find?_pointwise {α : Type} (p q : α → Bool) :
    ∀ (l : List α), (∀ a ∈ l, p a = q a) → l.find? p = l.find? q := by
  intro l
  induction l with
  | nil => intro _; rfl
  | cons a as ih =>
      intro h
      simp only [List.find?]
      rw [h a (by simp)]
      cases q a with
      | true => rfl
      | false => exact ih (fun x hx => h x (by simp [hx]))

theorem find?_none_app {α : Type} (p : α → Bool) :
    ∀ (l : List α), l.find? p = none → ∀ a ∈ l, p a = false := by
  intro l
  induction l with
  | nil => intro _ a ha; cases ha
  | cons b bs ih =>
      intro h a ha
      simp only [List.find?] at h
      rcases List.mem_cons.mp ha with rfl | hmem
      · cases hpb : p a with
        | false => rfl
        | true => rw [hpb] at h; cases h
      · cases hpb : p b with
        | false => rw [hpb] at h; exact ih h a hmem
        | true => rw [hpb] at h; cases h

theorem contains_singleton_one (x : Int) :
    (([1] : List Int).contains x) = decide (x = 1) := by
  simp [List.contains]

theorem getDay_addDays_tod (D tod : Int) (i : Nat) (h0 : 0 ≤ tod)
    (h1 : tod < 86400000) :
    getDay (addDays (D * 86400000 + tod) (i : Int)) = (D + i + 4) % 7 := by
  unfold getDay addDays dayOf msPerDay
  omega

theorem weekly_pred_eval (D M : Int) (hM0 : 0 ≤ M) (hM1 : M < 86400000)
    (hwD : (D + 4) % 7 = 3) (i : Nat) (hi : i < 14) :
    ((([1] : List Int).contains
        (getDay (addDays (D * 86400000 + (5 * 3600000 + 0 * 60000)) (i : Int))))
      && decide (D * 86400000 + M
          < addDays (D * 86400000 + (5 * 3600000 + 0 * 60000)) (i : Int)))
    = decide (i = 5 ∨ i = 12) := by
  rw [getDay_addDays_tod D (5 * 3600000 + 0 * 60000) i (by omega) (by omega),
    contains_singleton_one]
  unfold addDays msPerDay
  by_cases h5 : i = 5 ∨ i = 12
  · have e1 : (D + (i : Int) + 4) % 7 = 1 := by
      rcases h5 with h | h <;> subst h <;> push_cast <;> omega
    simp [e1, h5]
    omega
  · have e1 : ¬ (D + (i : Int) + 4) % 7 = 1 := by
      intro hcon
      apply h5
      omega
    simp [e1, h5]

/-- C6: `calculateNextRun` for a daily template (interval 1, time 05:00)
returns tomorrow 05:00 when `now` is 05:30 of any day, and today 05:00 when
`now` is 04:30 of that day; for a weekly template with `daysOfWeek = [1]`
(Monday) evaluated at any instant falling on a Wednesday it returns the
following Monday (five days later) at the configured 05:00, never the
already-past Monday of the current week. -/
theorem calculateNextRun_examples :
    (∀ d : Int, calculateNextRun ⟨.daily, 1, none, none, ⟨5, 0⟩⟩
        (d * 86400000 + 19800000) = (d + 1) * 86400000 + 18000000)
  ∧ (∀ d : Int, calculateNextRun ⟨.daily, 1, none, none, ⟨5, 0⟩⟩
        (d * 86400000 + 16200000) = d * 86400000 + 18000000)
  ∧ (∀ now : Int, getDay now = 3 →
      calculateNextRun ⟨.weekly, 1, some [1], none, ⟨5, 0⟩⟩ now
        = (dayOf now + 5) * 86400000 + 18000000) := by
  refine ⟨?_, ?_, ?_⟩
  · intro d
    unfold calculateNextRun
    dsimp only
    rw [setHours_form, dayOf_linear d 19800000 (by omega) (by omega)]
    unfold addDays msPerDay
    omega
  · intro d
    unfold calculateNextRun
    dsimp only
    rw [setHours_form, dayOf_linear d 16200000 (by omega) (by omega)]
    unfold addDays msPerDay
    omega
  · intro now hwed
    obtain ⟨D, M, rfl, hM0, hM1⟩ :
        ∃ D M, now = D * 86400000 + M ∧ 0 ≤ M ∧ M < 86400000 :=
      ⟨now / 86400000, now % 86400000, by omega, by omega, by omega⟩
    have hwD : (D + 4) % 7 = 3 := by
      unfold getDay at hwed
      rw [dayOf_linear D M hM0 hM1] at hwed
      exact hwed
    have hdayOf : dayOf (D * 86400000 + M) = D := dayOf_linear D M hM0 hM1
    rw [hdayOf]
    unfold calculateNextRun
    dsimp only
    rw [setHours_form, hdayOf]
    simp only [Option.getD]
    have hq5 : (List.range 14).find? (fun a => decide (a = 5 ∨ a = 12))
        = some 5 := by decide
    split
    · rename_i i heq
      have hcong := find?_pointwise _ (fun a => decide (a = 5 ∨ a = 12))
        (List.range 14)
        (fun a ha => weekly_pred_eval D M hM0 hM1 hwD a (List.mem_range.mp ha))
      have heq2 := hcong.symm.trans heq
      have hi5 : i = 5 := (Option.some.inj (hq5.symm.trans heq2)).symm
      subst hi5
      unfold addDays msPerDay
      push_cast
      ring
    · rename_i heq
      have hcong := find?_pointwise _ (fun a => decide (a = 5 ∨ a = 12))
        (List.range 14)
        (fun a ha => weekly_pred_eval D M hM0 hM1 hwD a (List.mem_range.mp ha))
      have heq2 := hcong.symm.trans heq
      exact Option.noConfusion (hq5.symm.trans heq2)

/-! ### Move-forward loop: helper lemmas -/

theorem markMoved_nil (t : Task) : markMoved [] t = t := by
  unfold markMoved
  simp

theorem markMoved_not_mem {ids : List Nat} {t : Task} (h : t.id ∉ ids) :
    markMoved ids t = t := by
  unfold markMoved
  simp [h]

theorem markMoved_update (i : Nat) (ids : List Nat) (t : Task) :
    markMoved ids (if t.id = i then { t with moved := true } else t)
      = markMoved (i :: ids) t := by
  unfold markMoved
  by_cases h1 : t.id = i
  · subst h1
    simp
  · simp only [if_neg h1, List.mem_cons]
    by_cases h2 : t.id ∈ ids
    · simp [h2]
    · simp [h2, h1]

theorem updateTask_map_mark (l : List Task) (i : Nat) (ids : List Nat) :
    (updateTask l i (fun u => { u with moved := true })).map (markMoved ids)
      = l.map (markMoved (i :: ids)) := by
  unfold updateTask
  rw [List.map_map]
  apply List.map_congr_left
  intro t _
  exact markMoved_update i ids t

theorem any_congr_list {α : Type} (p q : α → Bool) :
    ∀ (l : List α), (∀ a ∈ l, p a = q a) → l.any p = l.any q := by
  intro l
  induction l with
  | nil => intro _; rfl
  | cons a as ih =>
      intro h
      simp only [List.any_cons]
      rw [h a (by simp), ih (fun x hx => h x (by simp [hx]))]

theorem any_updateTask_mark (l : List Task) (i : Nat) (p : Task → Bool)
    (hp : ∀ t, p { t with moved := true } = p t) :
    (updateTask l i (fun u => { u with moved := true })).any p = l.any p := by
  unfold updateTask
  rw [List.any_map]
  apply any_congr_list
  intro t _
  by_cases h : t.id = i
  · simp only [Function.comp]
    rw [if_pos h]
    exact hp t
  · simp only [Function.comp]
    rw [if_neg h]

theorem tomorrowDupPred_mark (owner : Nat) (b : Boundaries) (ti : String)
    (ca : Nat) (t : Task) :
    tomorrowDupPred owner b ti ca { t with moved := true }
      = tomorrowDupPred owner b ti ca t := rfl

set_option maxHeartbeats 1000000

theorem markMoved_map_nil (l : List Task) : l.map (markMoved []) = l := by
  have h1 : l.map (markMoved []) = l.map id :=
    List.map_congr_left (fun a _ => markMoved_nil a)
  rw [h1, List.map_id]

theorem tomorrowDupPred_copy_true (owner : Nat) (b : Boundaries)
    (ti : String) (ca : Nat) (st : Store) (src : Task)
    (hti : src.title = ti) (hca : src.category = ca) :
    tomorrowDupPred owner b ti ca (copyTask st owner b src) = true := by
  unfold tomorrowDupPred copyTask addDays msPerDay
  have h1 : b.tomorrowStart < b.tomorrowStart + 1 * 86400000 := by omega
  simp [hti, hca, h1]

theorem tomorrowDupPred_copy_false (owner : Nat) (b : Boundaries)
    (ti : String) (ca : Nat) (st : Store) (src : Task)
    (h : ¬(src.title = ti ∧ src.category = ca)) :
    tomorrowDupPred owner b ti ca (copyTask st owner b src) = false := by
  unfold tomorrowDupPred copyTask addDays msPerDay
  rcases not_and_or.mp h with h | h
  · simp [h]
  · simp [h]

theorem moveLoop_spec (owner : Nat) (b : Boundaries) :
    ∀ (srcs : List Task) (st : Store) (newAcc : List Task) (idsAcc : List Nat),
    (∀ x ∈ srcs, x.id < st.nextId) →
    (srcs.map Task.id).Nodup →
    ∃ copies : List Task,
      (moveLoop owner b srcs st newAcc idsAcc).store.tasks
          = st.tasks.map (markMoved (srcs.map Task.id)) ++ copies
      ∧ (moveLoop owner b srcs st newAcc idsAcc).store.nextId
          = st.nextId + copies.length
      ∧ (moveLoop owner b srcs st newAcc idsAcc).newTasks = newAcc ++ copies
      ∧ (moveLoop owner b srcs st newAcc idsAcc).movedTaskIds
          = idsAcc ++ srcs.map Task.id
      ∧ copies.map Task.id = List.range' st.nextId copies.length
      ∧ (∀ c ∈ copies, c.date = b.tomorrowStart ∧ c.user = owner
          ∧ c.completed = false ∧ c.moved = false ∧ c.deleted = false
          ∧ c.completedAt = none
          ∧ ∃ src ∈ srcs, c.originalTaskId = some src.id ∧ c.title = src.title
              ∧ c.description = src.description ∧ c.priority = src.priority
              ∧ c.category = src.category)
      ∧ (∀ c ∈ copies, ∀ src ∈ srcs, c.originalTaskId = some src.id →
          st.tasks.any (tomorrowDupPred owner b src.title src.category) = false)
      ∧ List.Pairwise (fun a c => ¬(a.title = c.title ∧ a.category = c.category)) copies
      ∧ (∀ src ∈ srcs,
          st.tasks.any (tomorrowDupPred owner b src.title src.category) = false →
          (∀ src' ∈ srcs, src' ≠ src →
            ¬(src'.title = src.title ∧ src'.category = src.category)) →
          ∃ c ∈ copies, c.originalTaskId = some src.id) := by
  intro srcs
  induction srcs with
  | nil =>
      intro st newAcc idsAcc _ _
      refine ⟨[], ?_, ?_, ?_, ?_, ?_, ?_, ?_, ?_, ?_⟩ <;>
        simp [moveLoop, markMoved_map_nil]
  | cons src rest ih =>
      intro st newAcc idsAcc hlt hnd
      have hsrclt : src.id < st.nextId := hlt src (by simp)
      have hnd' := hnd
      rw [List.map_cons, List.nodup_cons] at hnd'
      obtain ⟨hsrcnot, hndr⟩ := hnd'
      cases hdup : st.tasks.any (tomorrowDupPred owner b src.title src.category) with
      | true =>
          have hred : moveLoop owner b (src :: rest) st newAcc idsAcc
              = moveLoop owner b rest
                  ⟨updateTask st.tasks src.id (fun u => { u with moved := true }),
                    st.nextId⟩
                  newAcc (idsAcc ++ [src.id]) := by
            simp only [moveLoop, hdup]
          rw [hred]
          obtain ⟨copies, c1, c2, c3, c4, c5, c6, c7, c8, c9⟩ :=
            ih ⟨updateTask st.tasks src.id (fun u => { u with moved := true }),
                st.nextId⟩
              newAcc (idsAcc ++ [src.id])
              (fun x hx => hlt x (by simp [hx]))
              hndr
          refine ⟨copies, ?_, ?_, ?_, ?_, ?_, ?_, ?_, ?_, ?_⟩
          · rw [c1]
            rw [List.map_cons]
            congr 1
            exact updateTask_map_mark st.tasks src.id (rest.map Task.id)
          · exact c2
          · exact c3
          · rw [c4]
            simp
          · exact c5
          · intro c hc
            obtain ⟨h1, h2, h3, h4, h5, h6, src', hmem, h7, h8, h9, h10, h11⟩ :=
              c6 c hc
            exact ⟨h1, h2, h3, h4, h5, h6, src', by simp [hmem], h7, h8, h9, h10, h11⟩
          · intro c hc src0 hsrc0 href
            rcases List.mem_cons.mp hsrc0 with rfl | hsrc0r
            · obtain ⟨_, _, _, _, _, _, src', hmem', href', _, _, _, _⟩ := c6 c hc
              rw [href] at href'
              have hid : src0.id = src'.id := Option.some.inj href'
              exact absurd (hid ▸ List.mem_map_of_mem Task.id hmem') hsrcnot
            · have h := c7 c hc src0 hsrc0r href
              rwa [any_updateTask_mark st.tasks src.id _
                (fun t => tomorrowDupPred_mark owner b src0.title src0.category t)] at h
          · exact c8
          · intro src0 hsrc0 hnodup0 huniq
            rcases List.mem_cons.mp hsrc0 with rfl | hsrc0r
            · rw [hdup] at hnodup0
              cases hnodup0
            · apply c9 src0 hsrc0r
              · rw [any_updateTask_mark st.tasks src.id _
                  (fun t => tomorrowDupPred_mark owner b src0.title src0.category t)]
                exact hnodup0
              · intro src' hsrc' hne
                exact huniq src' (by simp [hsrc']) hne
      | false =>
          have hc0notin : (copyTask st owner b src).id ∉ rest.map Task.id := by
            intro hmem
            obtain ⟨x, hx, hxid⟩ := List.mem_map.mp hmem
            have := hlt x (by simp [hx])
            rw [hxid] at this
            exact absurd this (by simp [copyTask])
          have hsplit : updateTask (st.tasks ++ [copyTask st owner b src]) src.id
              (fun u => { u with moved := true })
              = updateTask st.tasks src.id (fun u => { u with moved := true })
                  ++ [copyTask st owner b src] := by
            unfold updateTask
            rw [List.map_append]
            congr 1
            simp only [List.map_cons, List.map_nil]
            rw [if_neg]
            intro hEq
            rw [show (copyTask st owner b src).id = st.nextId from rfl] at hEq
            omega
          have hred : moveLoop owner b (src :: rest) st newAcc idsAcc
              = moveLoop owner b rest
                  ⟨updateTask (st.tasks ++ [copyTask st owner b src]) src.id
                      (fun u => { u with moved := true }), st.nextId + 1⟩
                  (newAcc ++ [copyTask st owner b src]) (idsAcc ++ [src.id]) := by
            simp only [moveLoop, hdup]
          rw [hred]
          obtain ⟨copies, c1, c2, c3, c4, c5, c6, c7, c8, c9⟩ :=
            ih ⟨updateTask (st.tasks ++ [copyTask st owner b src]) src.id
                  (fun u => { u with moved := true }), st.nextId + 1⟩
              (newAcc ++ [copyTask st owner b src]) (idsAcc ++ [src.id])
              (fun x hx => Nat.lt_succ_of_lt (hlt x (by simp [hx])))
              hndr
          refine ⟨copyTask st owner b src :: copies, ?_, ?_, ?_, ?_, ?_, ?_, ?_, ?_, ?_⟩
          · rw [c1, hsplit, List.map_append, List.map_cons]
            rw [List.map_cons, List.map_nil]
            rw [markMoved_not_mem hc0notin]
            rw [updateTask_map_mark st.tasks src.id (rest.map Task.id)]
            simp
          · rw [c2]
            simp only [List.length_cons]
            omega
          · rw [c3]
            simp
          · rw [c4]
            simp
          · simp only [List.map_cons, List.length_cons, c5]
            rw [show (copyTask st owner b src).id = st.nextId from rfl]
            rw [List.range'_succ]
          · intro c hc
            rcases List.mem_cons.mp hc with rfl | hcr
            · exact ⟨rfl, rfl, rfl, rfl, rfl, rfl, src, by simp, rfl, rfl, rfl, rfl, rfl⟩
            · obtain ⟨h1, h2, h3, h4, h5, h6, src', hmem, h7, h8, h9, h10, h11⟩ :=
                c6 c hcr
              exact ⟨h1, h2, h3, h4, h5, h6, src', by simp [hmem], h7, h8, h9, h10, h11⟩
          · intro c hc src0 hsrc0 href
            rcases List.mem_cons.mp hc with rfl | hcr
            · have hid : src0.id = src.id :=
                Option.some.inj
                  ((show (copyTask st owner b src).originalTaskId = some src.id from rfl)
                      ▸ href).symm
              rcases List.mem_cons.mp hsrc0 with rfl | hsrc0r
              · exact hdup
              · exact absurd (hid ▸ List.mem_map_of_mem Task.id hsrc0r) hsrcnot
            · rcases List.mem_cons.mp hsrc0 with rfl | hsrc0r
              · obtain ⟨_, _, _, _, _, _, src', hmem', href', _, _, _, _⟩ := c6 c hcr
                rw [href] at href'
                have hid : src0.id = src'.id := Option.some.inj href'
                exact absurd (hid ▸ List.mem_map_of_mem Task.id hmem') hsrcnot
              · have h := c7 c hcr src0 hsrc0r href
                rw [hsplit, List.any_append] at h
                rw [Bool.or_eq_false_iff] at h
                have h1 := h.1
                rwa [any_updateTask_mark st.tasks src.id _
                  (fun t => tomorrowDupPred_mark owner b src0.title src0.category t)] at h1
          · rw [List.pairwise_cons]
            constructor
            · intro c hcr hkey
              obtain ⟨_, _, _, _, _, _, src', hmem', href', hti, hde, hpr, hca⟩ :=
                c6 c hcr
              have h := c7 c hcr src' hmem' href'
              rw [hsplit, List.any_append] at h
              rw [Bool.or_eq_false_iff] at h
              have h2 := h.2
              simp only [List.any_cons, List.any_nil, Bool.or_false] at h2
              have : tomorrowDupPred owner b src'.title src'.category
                  (copyTask st owner b src) = true := by
                apply tomorrowDupPred_copy_true
                · rw [← hti, ← hkey.1]
                  rfl
                · rw [← hca, ← hkey.2]
                  rfl
              rw [this] at h2
              cases h2
            · exact c8
          · intro src0 hsrc0 hnodup0 huniq
            rcases List.mem_cons.mp hsrc0 with rfl | hsrc0r
            · exact ⟨copyTask st owner b src0, by simp, rfl⟩
            · have hsrcne : src ≠ src0 := by
                intro hEq
                exact hsrcnot (hEq ▸ List.mem_map_of_mem Task.id hsrc0r)
              obtain ⟨c, hcmem, hcref⟩ := c9 src0 hsrc0r
                (by
                  rw [hsplit, List.any_append, Bool.or_eq_false_iff]
                  constructor
                  · rw [any_updateTask_mark st.tasks src.id _
                      (fun t => tomorrowDupPred_mark owner b src0.title src0.category t)]
                    exact hnodup0
                  · simp only [List.any_cons, List.any_nil, Bool.or_false]
                    exact tomorrowDupPred_copy_false owner b src0.title src0.category st src
                      (huniq src (by simp) hsrcne))
                (fun src' hsrc' hne => huniq src' (by simp [hsrc']) hne)
              exact ⟨c, by simp [hcmem], hcref⟩

theorem todayUncompleted_mem {s : Store} {owner : Nat} {b : Boundaries}
    {x : Task} (h : x ∈ todayUncompleted s owner b) : x ∈ s.tasks :=
  List.mem_of_mem_filter h

theorem todayUncompleted_ids_nodup (s : Store) (owner : Nat) (b : Boundaries)
    (h : (s.tasks.map Task.id).Nodup) :
    ((todayUncompleted s owner b).map Task.id).Nodup :=
  h.sublist ((s.tasks.filter_sublist).map Task.id)

/-- C3: `/move-to-tomorrow` processes exactly the tasks of today's window
that are not completed, not moved and not deleted (`todayUncompleted`):
those and only those are marked `moved := true`, while every other stored
field — in particular `date` — is left unchanged (`markMoved`); every
created record lands in tomorrow's window with `originalTaskId` pointing
at its source and the source's title, description, priority and category;
when a not-deleted task with the same title and category already exists in
tomorrow's window no record is created for that source (which is still
marked moved); and when no such duplicate exists (and no other processed
source shares the key) a record is created. -/
theorem moveToTomorrow_spec (s : Store) (owner : Nat) (now : Int)
    (hWF : WF s) :
    (moveToTomorrow s owner now).movedTaskIds
      = (todayUncompleted s owner (getDayBoundaries now)).map Task.id
    ∧ ∃ copies : List Task,
      (moveToTomorrow s owner now).newTasks = copies
      ∧ (moveToTomorrow s owner now).store.tasks
          = s.tasks.map (markMoved
              ((todayUncompleted s owner (getDayBoundaries now)).map Task.id))
            ++ copies
      ∧ (∀ c ∈ copies, c.date = (getDayBoundaries now).tomorrowStart
          ∧ ∃ src ∈ todayUncompleted s owner (getDayBoundaries now),
              c.originalTaskId = some src.id ∧ c.title = src.title
              ∧ c.description = src.description ∧ c.priority = src.priority
              ∧ c.category = src.category)
      ∧ (∀ c ∈ copies, ∀ src ∈ todayUncompleted s owner (getDayBoundaries now),
          c.originalTaskId = some src.id →
          s.tasks.any (tomorrowDupPred owner (getDayBoundaries now)
            src.title src.category) = false)
      ∧ (∀ src ∈ todayUncompleted s owner (getDayBoundaries now),
          s.tasks.any (tomorrowDupPred owner (getDayBoundaries now)
            src.title src.category) = false →
          (∀ src' ∈ todayUncompleted s owner (getDayBoundaries now), src' ≠ src →
            ¬(src'.title = src.title ∧ src'.category = src.category)) →
          ∃ c ∈ copies, c.originalTaskId = some src.id) := by
  obtain ⟨copies, c1, c2, c3, c4, c5, c6, c7, c8, c9⟩ :=
    moveLoop_spec owner (getDayBoundaries now)
      (todayUncompleted s owner (getDayBoundaries now)) s [] []
      (fun x hx => hWF.1 x (todayUncompleted_mem hx))
      (todayUncompleted_ids_nodup s owner (getDayBoundaries now) hWF.2)
  have hunfold : moveToTomorrow s owner now
      = moveLoop owner (getDayBoundaries now)
          (todayUncompleted s owner (getDayBoundaries now)) s [] [] := rfl
  rw [hunfold]
  refine ⟨by rw [c4]; simp, copies, by rw [c3]; simp, c1, ?_, c7, c9⟩
  intro c hc
  obtain ⟨h1, _, _, _, _, _, src, hmem, h7, h8, h9, h10, h11⟩ := c6 c hc
  exact ⟨h1, src, hmem, h7, h8, h9, h10, h11⟩

/-! ### Move-back-to-today -/

theorem purgePred_iff (owner : Nat) (b : Boundaries) (ti : String) (ca : Nat)
    (id : Nat) (u : Task) :
    purgePred owner b ti ca id u = true
      ↔ u.user = owner ∧ u.title = ti ∧ u.category = ca
        ∧ b.todayStart ≤ u.date ∧ u.date < b.tomorrowStart ∧ u.id ≠ id := by
  unfold purgePred
  simp [Bool.and_eq_true, beq_iff_eq, decide_eq_true_eq, bne_iff_ne, and_assoc]

theorem visibleTodayKey_iff (owner : Nat) (b : Boundaries) (ti : String)
    (ca : Nat) (u : Task) :
    visibleTodayKey owner b ti ca u = true
      ↔ u.user = owner ∧ u.title = ti ∧ u.category = ca
        ∧ b.todayStart ≤ u.date ∧ u.date < b.tomorrowStart
        ∧ u.moved = false ∧ u.deleted = false := by
  unfold visibleTodayKey
  simp [Bool.and_eq_true, beq_iff_eq, decide_eq_true_eq, Bool.not_eq_true',
    and_assoc]

theorem uncompletedPred_iff (owner : Nat) (b : Boundaries) (t : Task) :
    uncompletedPred owner b t = true
      ↔ t.user = owner ∧ b.todayStart ≤ t.date ∧ t.date < b.tomorrowStart
        ∧ t.completed = false ∧ t.moved = false ∧ t.deleted = false := by
  unfold uncompletedPred
  simp [Bool.and_eq_true, beq_iff_eq, decide_eq_true_eq, Bool.not_eq_true',
    and_assoc]

theorem tomorrowDupPred_iff (owner : Nat) (b : Boundaries) (ti : String)
    (ca : Nat) (u : Task) :
    tomorrowDupPred owner b ti ca u = true
      ↔ u.user = owner ∧ u.title = ti ∧ u.category = ca
        ∧ b.tomorrowStart ≤ u.date ∧ u.date < addDays b.tomorrowStart 1
        ∧ u.deleted = false := by
  unfold tomorrowDupPred
  simp [Bool.and_eq_true, beq_iff_eq, decide_eq_true_eq, Bool.not_eq_true',
    and_assoc]

theorem todayDupPred_iff (owner : Nat) (b : Boundaries) (ti : String)
    (ca : Nat) (u : Task) :
    todayDupPred owner b ti ca u = true
      ↔ u.user = owner ∧ u.title = ti ∧ u.category = ca
        ∧ b.todayStart ≤ u.date ∧ u.date < b.tomorrowStart
        ∧ u.deleted = false := by
  unfold todayDupPred
  simp [Bool.and_eq_true, beq_iff_eq, decide_eq_true_eq, Bool.not_eq_true',
    and_assoc]

theorem getDayBoundaries_step (now : Int) :
    (getDayBoundaries now).tomorrowStart
        = (getDayBoundaries now).todayStart + 86400000
    ∧ (getDayBoundaries now).dayAfterTomorrowStart
        = (getDayBoundaries now).tomorrowStart + 86400000 := by
  unfold getDayBoundaries addDays msPerDay
  dsimp only
  constructor
  · split <;> ring
  · split <;> ring

theorem updateTask_mem {l : List Task} {t : Task} (h : t ∈ l) (id : Nat)
    (f : Task → Task) (hid : t.id = id) : f t ∈ updateTask l id f := by
  unfold updateTask
  have hm := List.mem_map_of_mem (fun x => if x.id = id then f x else x) h
  simp only [] at hm
  rwa [if_pos hid] at hm

theorem updateTask_mem_ne {l : List Task} {t : Task} (h : t ∈ l) (id : Nat)
    (f : Task → Task) (hne : ¬ t.id = id) : t ∈ updateTask l id f := by
  unfold updateTask
  have hm := List.mem_map_of_mem (fun x => if x.id = id then f x else x) h
  simp only [] at hm
  rwa [if_neg hne] at hm

theorem find?_by_id (l : List Task) (hnd : (l.map Task.id).Nodup) (t : Task)
    (ht : t ∈ l) (owner : Nat) (hu : t.user = owner) :
    l.find? (fun x => x.id == t.id && x.user == owner) = some t := by
  induction l with
  | nil => cases ht
  | cons a as ih =>
      rw [List.map_cons, List.nodup_cons] at hnd
      rcases List.mem_cons.mp ht with rfl | htr
      · simp [List.find?, hu]
      · have hne : ¬ a.id = t.id := by
          intro hEq
          exact hnd.1 (hEq ▸ List.mem_map_of_mem Task.id htr)
        have hpa : (a.id == t.id && a.user == owner) = false := by
          simp [hne]
        simp only [List.find?, hpa]
        exact ih hnd.2 htr

/-- C4: `/move-back-to-today/:id` answers NotFound exactly when no task
with the given id is owned by the caller; given a found task it answers
InvalidOperation exactly when the task's date does not lie in the
tomorrow window relative to `now`; on any failure the store is returned
unmodified; and on success the purge removes every other task of today's
window sharing the task's title and category (hidden `moved = true`
records included, since the purge filter never looks at flags), the
target task's date becomes today's window start with `originalTaskRef`
cleared, and every unrelated record survives. -/
theorem moveBackToToday_spec (s : Store) (owner id : Nat) (now : Int) :
    ((moveBackToToday s owner id now).1 = MBOutcome.notFound
        ↔ s.tasks.find? (fun t => t.id == id && t.user == owner) = none)
    ∧ (∀ task, s.tasks.find? (fun t => t.id == id && t.user == owner) = some task →
        ((moveBackToToday s owner id now).1 = MBOutcome.invalidOperation
          ↔ ¬((getDayBoundaries now).tomorrowStart ≤ task.date
              ∧ task.date < addDays (getDayBoundaries now).tomorrowStart 1)))
    ∧ ((moveBackToToday s owner id now).1 ≠ MBOutcome.success →
        (moveBackToToday s owner id now).2 = s)
    ∧ (∀ task, s.tasks.find? (fun t => t.id == id && t.user == owner) = some task →
        (getDayBoundaries now).tomorrowStart ≤ task.date →
        task.date < addDays (getDayBoundaries now).tomorrowStart 1 →
        (moveBackToToday s owner id now).1 = MBOutcome.success
        ∧ ({ task with
              date := (getDayBoundaries now).todayStart,
              originalTaskId := none } : Task)
            ∈ (moveBackToToday s owner id now).2.tasks
        ∧ (∀ u ∈ (moveBackToToday s owner id now).2.tasks,
            u.user = owner → u.title = task.title → u.category = task.category →
            (getDayBoundaries now).todayStart ≤ u.date →
            u.date < (getDayBoundaries now).tomorrowStart → u.id = id)
        ∧ (∀ u ∈ s.tasks, u.id ≠ id →
            purgePred owner (getDayBoundaries now) task.title task.category id u
              = false →
            u ∈ (moveBackToToday s owner id now).2.tasks)) := by
  rcases hfind : s.tasks.find? (fun t => t.id == id && t.user == owner)
    with _ | task
  · have hred : moveBackToToday s owner id now = (MBOutcome.notFound, s) := by
      unfold moveBackToToday
      rw [hfind]
    rw [hred]
    refine ⟨by simp [hfind], ?_, fun _ => rfl, ?_⟩
    · intro task htask
      rw [htask] at hfind
      cases hfind
    · intro task htask
      rw [htask] at hfind
      cases hfind
  · have hid : task.id = id ∧ task.user = owner := by
      have := List.find?_some hfind
      simpa [Bool.and_eq_true, beq_iff_eq] using this
    have hmem : task ∈ s.tasks := List.mem_of_find?_eq_some hfind
    by_cases hwin : (getDayBoundaries now).tomorrowStart ≤ task.date
        ∧ task.date < addDays (getDayBoundaries now).tomorrowStart 1
    · have hred : moveBackToToday s owner id now
          = (MBOutcome.success,
            ⟨updateTask
              (s.tasks.filter (fun u =>
                !(purgePred owner (getDayBoundaries now) task.title task.category
                    id u)))
              id
              (fun u => { u with
                            date := (getDayBoundaries now).todayStart,
                            originalTaskId := none }),
            s.nextId⟩) := by
        unfold moveBackToToday
        rw [hfind]
        simp only [if_pos hwin]
      rw [hred]
      refine ⟨?_, ?_, by simp, ?_⟩
      · constructor
        · intro h
          simp at h
        · intro h
          rw [hfind] at h
          cases h
      · intro task' htask'
        rw [htask'] at hfind
        cases hfind
        simp only
        constructor
        · intro h; cases h
        · intro h; exact absurd hwin h
      · intro task' htask' h1 h2
        rw [htask'] at hfind
        cases hfind
        refine ⟨rfl, ?_, ?_, ?_⟩
        · have hkeep : task ∈ s.tasks.filter (fun u =>
              !(purgePred owner (getDayBoundaries now) task.title task.category
                  id u)) := by
            rw [List.mem_filter]
            refine ⟨hmem, ?_⟩
            simp only [Bool.not_eq_true', Bool.not_eq_true]
            rw [← Bool.not_eq_true]
            intro hp
            exact ((purgePred_iff _ _ _ _ _ _).mp hp).2.2.2.2.2 hid.1
          exact updateTask_mem hkeep id _ hid.1
        · intro u hu huser htitle hcat hd1 hd2
          unfold updateTask at hu
          obtain ⟨v, hv, hvu⟩ := List.mem_map.mp hu
          rw [List.mem_filter] at hv
          by_cases hvid : v.id = id
          · rw [← hvu]
            rw [if_pos hvid]
            exact hvid
          · rw [if_neg hvid] at hvu
            subst hvu
            exfalso
            have hpv : purgePred owner (getDayBoundaries now) task.title
                task.category id v = true :=
              (purgePred_iff _ _ _ _ _ _).mpr
                ⟨huser, htitle, hcat, hd1, hd2, hvid⟩
            rw [hpv] at hv
            simpa using hv.2
        · intro u hu huid hp
          have hkeep : u ∈ s.tasks.filter (fun v =>
              !(purgePred owner (getDayBoundaries now) task.title task.category
                  id v)) := by
            rw [List.mem_filter]
            exact ⟨hu, by rw [hp]; rfl⟩
          exact updateTask_mem_ne hkeep id _ huid
    · have hred : moveBackToToday s owner id now = (MBOutcome.invalidOperation, s) := by
        unfold moveBackToToday
        rw [hfind]
        simp only [if_neg hwin]
      rw [hred]
      refine ⟨?_, ?_, fun _ => rfl, ?_⟩
      · constructor
        · intro h
          simp at h
        · intro h
          rw [hfind] at h
          cases h
      · intro task' htask'
        rw [htask'] at hfind
        cases hfind
        simpa using hwin
      · intro task' htask' h1 h2
        rw [htask'] at hfind
        cases hfind
        exact absurd ⟨h1, h2⟩ hwin

/-- C10: the purge step of a successful `/move-back-to-today/:id`
hard-deletes every task of the same owner in today's window sharing the
moved task's title and category other than the moved task itself, with no
condition on `completed`, `moved` or `deleted` — the statement places no
hypothesis on those flags, so completed records and already soft-deleted
records are permanently removed as well. -/
theorem moveBack_purge_ignores_flags (s : Store) (owner id : Nat) (now : Int) :
    ∀ task, s.tasks.find? (fun t => t.id == id && t.user == owner) = some task →
    (getDayBoundaries now).tomorrowStart ≤ task.date →
    task.date < addDays (getDayBoundaries now).tomorrowStart 1 →
    ∀ u ∈ s.tasks, u.user = owner → u.title = task.title →
      u.category = task.category →
      (getDayBoundaries now).todayStart ≤ u.date →
      u.date < (getDayBoundaries now).tomorrowStart →
      u.id ≠ id →
      u ∉ (moveBackToToday s owner id now).2.tasks := by
  intro task hfind h1 h2 u hu huser htitle hcat hd1 hd2 huid hmem
  have hred : moveBackToToday s owner id now
      = (MBOutcome.success,
        ⟨updateTask
          (s.tasks.filter (fun v =>
            !(purgePred owner (getDayBoundaries now) task.title task.category
                id v)))
          id
          (fun v => { v with
                        date := (getDayBoundaries now).todayStart,
                        originalTaskId := none }),
        s.nextId⟩) := by
    unfold moveBackToToday
    rw [hfind]
    simp only [if_pos (And.intro h1 h2)]
  rw [hred] at hmem
  simp only at hmem
  unfold updateTask at hmem
  obtain ⟨v, hv, hvu⟩ := List.mem_map.mp hmem
  rw [List.mem_filter] at hv
  by_cases hvid : v.id = id
  · rw [if_pos hvid] at hvu
    apply huid
    rw [← hvu]
    exact hvid
  · rw [if_neg hvid] at hvu
    subst hvu
    have hpv : purgePred owner (getDayBoundaries now) task.title
        task.category id v = true :=
      (purgePred_iff _ _ _ _ _ _).mpr ⟨huser, htitle, hcat, hd1, hd2, hvid⟩
    rw [hpv] at hv
    simpa using hv.2

/-! ### Reorder-tasks -/

theorem contains_iff_mem (l : List Nat) (x : Nat) : l.contains x = true ↔ x ∈ l := by
  simp [List.contains]

theorem reorder_fold_keep :
    ∀ (ids : List Nat) (n : Nat) (acc : List Task) (t : Task),
    t ∈ acc → t.id ∉ ids →
    t ∈ (List.enumFrom n ids).foldl
        (fun acc p => updateTask acc p.2
          (fun u => { u with priority := reorderPriority p.1 })) acc := by
  intro ids
  induction ids with
  | nil => intro n acc t ht _; exact ht
  | cons a as ih =>
      intro n acc t ht hni
      have h1 : ¬ t.id = a := fun h => hni (by simp [h])
      have h2 : t.id ∉ as := fun h => hni (by simp [h])
      exact ih (n + 1) _ t
        (updateTask_mem_ne ht a
          (fun u => { u with priority := reorderPriority n }) h1) h2

theorem reorder_fold_set :
    ∀ (ids : List Nat) (n : Nat) (acc : List Task) (i : Nat)
      (hi : i < ids.length) (t : Task),
    t ∈ acc → ids.Nodup → t.id = ids.get ⟨i, hi⟩ →
    ({ t with priority := reorderPriority (n + i) } : Task)
      ∈ (List.enumFrom n ids).foldl
          (fun acc p => updateTask acc p.2
            (fun u => { u with priority := reorderPriority p.1 })) acc := by
  intro ids
  induction ids with
  | nil => intro n acc i hi; exact absurd hi (Nat.not_lt_zero i)
  | cons a as ih =>
      intro n acc i hi t ht hnd hgt
      rw [List.nodup_cons] at hnd
      cases i with
      | zero =>
          have hta : t.id = a := hgt
          have hmem1 : ({ t with priority := reorderPriority n } : Task)
              ∈ updateTask acc a
                  (fun u => { u with priority := reorderPriority n }) :=
            updateTask_mem ht a _ hta
          have hnotin : ({ t with priority := reorderPriority n } : Task).id ∉ as := by
            simpa using (hta ▸ hnd.1)
          have hk := reorder_fold_keep as (n + 1) _ _ hmem1 hnotin
          simpa using hk
      | succ j =>
          have hj : j < as.length := Nat.lt_of_succ_lt_succ hi
          have hgt' : t.id = as.get ⟨j, hj⟩ := hgt
          have htne : ¬ t.id = a := by
            intro h
            apply hnd.1
            rw [← h, hgt']
            exact List.get_mem as j hj
          have ht' := updateTask_mem_ne ht a
            (fun u => { u with priority := reorderPriority n }) htne
          have hres := ih (n + 1) _ j hj t ht' hnd.2 hgt'
          rw [show n + 1 + j = n + (j + 1) from by omega] at hres
          exact hres

/-- C8 (amended): `/reorder-tasks` fails with a ValidationError exactly
when the sequence is empty or when the tasks found for the given ids and
owner do not number exactly as many as the ids (so a nonexistent id, an
unowned id, or a duplicated id each cause failure); on success the ids are
necessarily pairwise distinct, the task at 0-based index `i` is stored with
priority `min(i+1, 3)` (`reorderPriority`), other tasks are untouched, and
`reorderPriority` saturates at 3 from index 2 on, so `[a,b,c,d]` yields
priorities `[1,2,3,3]`. -/
theorem reorderTasks_spec (s : Store) (owner : Nat) (ids : List Nat)
    (hWF : WF s) :
    (reorderTasks s owner ids = .validationError
      ↔ ids = []
        ∨ (s.tasks.filter
            (fun t => ids.contains t.id && t.user == owner)).length
            ≠ ids.length)
    ∧ (∀ s', reorderTasks s owner ids = .ok s' →
        ids.Nodup
        ∧ (∀ i, (hi : i < ids.length) → ∀ t ∈ s.tasks, t.id = ids.get ⟨i, hi⟩ →
            ({ t with priority := reorderPriority i } : Task) ∈ s'.tasks)
        ∧ (∀ t ∈ s.tasks, t.id ∉ ids → t ∈ s'.tasks))
    ∧ reorderPriority 0 = 1 ∧ reorderPriority 1 = 2 ∧ reorderPriority 2 = 3
    ∧ (∀ i : Nat, 2 ≤ i → reorderPriority i = 3) := by
  have hpart1 : reorderTasks s owner ids = .validationError
      ↔ ids = []
        ∨ (s.tasks.filter
            (fun t => ids.contains t.id && t.user == owner)).length
            ≠ ids.length := by
    unfold reorderTasks
    by_cases hE : ids.isEmpty = true
    · rw [if_pos hE]
      exact ⟨fun _ => Or.inl (List.isEmpty_iff.mp hE), fun _ => rfl⟩
    · rw [if_neg hE]
      have hne : ¬ ids = [] := fun h => hE (by simp [h])
      by_cases hlen : (s.tasks.filter
          (fun t => ids.contains t.id && t.user == owner)).length ≠ ids.length
      · rw [if_pos hlen]
        exact ⟨fun _ => Or.inr hlen, fun _ => rfl⟩
      · rw [if_neg hlen]
        refine iff_of_false (fun h => ?_) (fun h => ?_)
        · cases h
        · rcases h with h | h
          · exact hne h
          · exact hlen h
  refine ⟨hpart1, ?_, by decide, by decide, by decide, ?_⟩
  · intro s' hok
    have hE : ¬ ids.isEmpty = true := by
      intro h
      unfold reorderTasks at hok
      rw [if_pos h] at hok
      cases hok
    have hlen : ¬ (s.tasks.filter
        (fun t => ids.contains t.id && t.user == owner)).length ≠ ids.length := by
      intro h
      unfold reorderTasks at hok
      rw [if_neg hE, if_pos h] at hok
      cases hok
    have hs' : s' = ⟨applyReorder s.tasks ids, s.nextId⟩ := by
      unfold reorderTasks at hok
      rw [if_neg hE, if_neg hlen] at hok
      cases hok
      rfl
    have hnodup : ids.Nodup := by
      by_contra hnd
      have hded : ids.dedup.length < ids.length := by
        rcases Nat.lt_or_ge ids.dedup.length ids.length with h1 | h1
        · exact h1
        · exfalso
          have hsub := List.dedup_sublist ids
          have : ids.dedup = ids := hsub.eq_of_length
            (le_antisymm hsub.length_le h1)
          exact hnd (this ▸ ids.nodup_dedup)
      have hFnodup : ((s.tasks.filter
          (fun t => ids.contains t.id && t.user == owner)).map Task.id).Nodup :=
        hWF.2.sublist ((List.filter_sublist _).map Task.id)
      have hsubset : ∀ x ∈ (s.tasks.filter
          (fun t => ids.contains t.id && t.user == owner)).map Task.id,
          x ∈ ids := by
        intro x hx
        obtain ⟨t, ht, rfl⟩ := List.mem_map.mp hx
        rw [List.mem_filter] at ht
        have := ht.2
        rw [Bool.and_eq_true] at this
        exact (contains_iff_mem ids t.id).mp this.1
      have hfin : ((s.tasks.filter
          (fun t => ids.contains t.id && t.user == owner)).map Task.id).toFinset
          ⊆ ids.toFinset := by
        intro x hx
        rw [List.mem_toFinset] at hx ⊢
        exact hsubset x hx
      have hcard := Finset.card_le_card hfin
      rw [List.toFinset_card_of_nodup hFnodup, List.length_map,
        List.card_toFinset] at hcard
      omega
    refine ⟨hnodup, ?_, ?_⟩
    · intro i hi t ht hgt
      rw [hs']
      have := reorder_fold_set ids 0 s.tasks i hi t ht hnodup hgt
      simpa [applyReorder] using this
    · intro t ht hni
      rw [hs']
      exact reorder_fold_keep ids 0 s.tasks t ht hni
  · intro i hi
    unfold reorderPriority
    rw [min_eq_right]
    omega

/-- C8 counterexample to the claim as stated: in a store holding the
single owned task with id 1, the sequence `[1, 1]` is nonempty and every
id in it exists for the caller, yet the route fails with a
ValidationError instead of assigning priorities. -/
theorem reorderTasks_counterexample :
    (¬ ([1, 1] : List Nat) = [])
    ∧ (∀ i ∈ ([1, 1] : List Nat), ∃ t ∈ cexStore.tasks, t.id = i ∧ t.user = 7)
    ∧ reorderTasks cexStore 7 [1, 1] = ReorderResult.validationError := by decide

/-- Witness for `reorderTasks_spec` on a concrete four-task store. -/
theorem reorderTasks_spec_witness :
    ∃ s', reorderTasks wStoreR 7 [10, 11, 12, 13] = ReorderResult.ok s'
      ∧ (⟨10, 7, "a", "", 1, 3, 0, false, none, false, false, none⟩ : Task) ∈ s'.tasks
      ∧ (⟨11, 7, "b", "", 2, 3, 0, false, none, false, false, none⟩ : Task) ∈ s'.tasks
      ∧ (⟨12, 7, "c", "", 3, 3, 0, false, none, false, false, none⟩ : Task) ∈ s'.tasks
      ∧ (⟨13, 7, "d", "", 3, 3, 0, false, none, false, false, none⟩ : Task) ∈ s'.tasks := by
  rcases hval : reorderTasks wStoreR 7 [10, 11, 12, 13] with _ | s'
  · exfalso
    have h := (reorderTasks_spec wStoreR 7 [10, 11, 12, 13]
      (show WF wStoreR from ⟨by decide, by decide⟩)).1
    rw [hval] at h
    rcases h.mp rfl with h2 | h2
    · cases h2
    · exact absurd h2 (by decide)
  · have h := (reorderTasks_spec wStoreR 7 [10, 11, 12, 13]
      (show WF wStoreR from ⟨by decide, by decide⟩)).2.1 s' hval
    refine ⟨s', rfl, ?_, ?_, ?_, ?_⟩
    · exact h.2.1 0 (by decide)
        ⟨10, 7, "a", "", 2, 3, 0, false, none, false, false, none⟩
        (by decide) (by decide)
    · exact h.2.1 1 (by decide)
        ⟨11, 7, "b", "", 2, 3, 0, false, none, false, false, none⟩
        (by decide) (by decide)
    · exact h.2.1 2 (by decide)
        ⟨12, 7, "c", "", 1, 3, 0, false, none, false, false, none⟩
        (by decide) (by decide)
    · exact h.2.1 3 (by decide)
        ⟨13, 7, "d", "", 3, 3, 0, false, none, false, false, none⟩
        (by decide) (by decide)

/-! ### Update route -/

/-- C9: when `PUT /:id` finds the task and the update passes the category
check, updating with `completed = true` and no caller-supplied
`completedAt` stamps `completedAt = now`; updating with
`completed = false` (and no supplied `completedAt`) leaves the stored
`completedAt` unchanged — it is never cleared; and every field not named
in the update document keeps its stored value (`id`, `user`, `moved`,
`deleted`, `originalTaskId` cannot be named at all and always survive). -/
theorem updateTaskRoute_spec (s : Store) (validCats : List Nat)
    (owner id : Nat) (u : TaskUpdates) (now : Int) (t : Task)
    (hfind : s.tasks.find? (fun x => x.id == id && x.user == owner) = some t)
    (hcat : (match u.category with
      | none => true
      | some c => validCats.contains c) = true) :
    ∃ s' rt, updateTaskRoute s validCats owner id u now = .ok s' rt
    ∧ (u.completed = some true → u.completedAt = none →
        rt.completedAt = some now ∧ rt.completed = true)
    ∧ (u.completed = some false → u.completedAt = none →
        rt.completedAt = t.completedAt ∧ rt.completed = false)
    ∧ (u.completedAt = none → ¬ u.completed = some true →
        rt.completedAt = t.completedAt)
    ∧ (u.title = none → rt.title = t.title)
    ∧ (u.description = none → rt.description = t.description)
    ∧ (u.priority = none → rt.priority = t.priority)
    ∧ (u.category = none → rt.category = t.category)
    ∧ (u.date = none → rt.date = t.date)
    ∧ (u.completed = none → rt.completed = t.completed)
    ∧ rt.id = t.id ∧ rt.user = t.user ∧ rt.moved = t.moved
    ∧ rt.deleted = t.deleted ∧ rt.originalTaskId = t.originalTaskId
    ∧ rt ∈ s'.tasks := by
  have hids : t.id = id ∧ t.user = owner := by
    have := List.find?_some hfind
    simpa [Bool.and_eq_true, beq_iff_eq] using this
  have hmem : t ∈ s.tasks := List.mem_of_find?_eq_some hfind
  have hscat : (stampCompleted u now).category = u.category := by
    unfold stampCompleted
    split <;> rfl
  have hred : updateTaskRoute s validCats owner id u now
      = .ok ⟨updateTask s.tasks id
              (fun x => applyUpdates x (stampCompleted u now)), s.nextId⟩
          (applyUpdates t (stampCompleted u now)) := by
    unfold updateTaskRoute
    dsimp only
    rw [hscat, hcat, hfind]
    rfl
  refine ⟨_, _, hred, ?_, ?_, ?_, ?_, ?_, ?_, ?_, ?_, ?_, rfl, rfl, rfl, rfl,
    rfl, ?_⟩
  · intro h1 h2
    have hstamp : stampCompleted u now = { u with completedAt := some now } := by
      unfold stampCompleted
      rw [if_pos]
      rw [h1, h2]
      rfl
    constructor
    · simp [applyUpdates, hstamp]
    · simp [applyUpdates, hstamp, h1]
  · intro h1 h2
    have hstamp : stampCompleted u now = u := by
      unfold stampCompleted
      rw [if_neg]
      rw [h1]
      simp
    constructor
    · simp [applyUpdates, hstamp, h2]
    · simp [applyUpdates, hstamp, h1]
  · intro h1 h2
    have hstamp : stampCompleted u now = u := by
      unfold stampCompleted
      rw [if_neg]
      intro hc
      rw [Bool.and_eq_true] at hc
      apply h2
      cases hcompleted : u.completed with
      | none => rw [hcompleted] at hc; cases hc.1
      | some bv =>
          rw [hcompleted] at hc
          cases bv
          · exact absurd hc.1 (by decide)
          · rfl
    simp [applyUpdates, hstamp, h1]
  · intro h1
    have : (stampCompleted u now).title = u.title := by
      unfold stampCompleted
      split <;> rfl
    simp [applyUpdates, this, h1]
  · intro h1
    have : (stampCompleted u now).description = u.description := by
      unfold stampCompleted
      split <;> rfl
    simp [applyUpdates, this, h1]
  · intro h1
    have : (stampCompleted u now).priority = u.priority := by
      unfold stampCompleted
      split <;> rfl
    simp [applyUpdates, this, h1]
  · intro h1
    have : (stampCompleted u now).category = u.category := by
      unfold stampCompleted
      split <;> rfl
    simp [applyUpdates, this, h1]
  · intro h1
    have : (stampCompleted u now).date = u.date := by
      unfold stampCompleted
      split <;> rfl
    simp [applyUpdates, this, h1]
  · intro h1
    have : (stampCompleted u now).completed = u.completed := by
      unfold stampCompleted
      split <;> rfl
    simp [applyUpdates, this, h1]
  · exact updateTask_mem hmem id _ hids.1

theorem visible_imp_purge (owner : Nat) (b : Boundaries) (c a : Task)
    (hne : ¬ a.id = c.id)
    (h : visibleTodayKey owner b c.title c.category a = true) :
    purgePred owner b c.title c.category c.id a = true := by
  rw [visibleTodayKey_iff] at h
  exact (purgePred_iff _ _ _ _ _ _).mpr
    ⟨h.1, h.2.1, h.2.2.1, h.2.2.2.1, h.2.2.2.2.1, hne⟩

theorem filter_visible_none (owner : Nat) (b : Boundaries) (c : Task) :
    ∀ (L : List Task), (∀ v ∈ L, ¬ v.id = c.id) →
    (updateTask
        (L.filter (fun u => !(purgePred owner b c.title c.category c.id u)))
        c.id
        (fun u => { u with date := b.todayStart, originalTaskId := none })).filter
      (visibleTodayKey owner b c.title c.category) = [] := by
  intro L
  induction L with
  | nil => intro _; rfl
  | cons a as ih =>
      intro hids
      have hane : ¬ a.id = c.id := hids a (by simp)
      have hrest := ih (fun v hv => hids v (by simp [hv]))
      rw [List.filter_cons]
      by_cases hkeep : (!(purgePred owner b c.title c.category c.id a)) = true
      · rw [if_pos hkeep]
        unfold updateTask
        rw [List.map_cons, if_neg hane, List.filter_cons]
        have hvis : visibleTodayKey owner b c.title c.category a = false := by
          cases hv : visibleTodayKey owner b c.title c.category a
          · rfl
          · exfalso
            have := visible_imp_purge owner b c a hane hv
            rw [this] at hkeep
            simp at hkeep
        rw [hvis]
        simp only [Bool.false_eq_true, if_false]
        exact hrest
      · rw [if_neg hkeep]
        exact hrest

theorem filter_visible_moveback (owner : Nat) (b : Boundaries) (c : Task)
    (hu : c.user = owner) (hmoved : c.moved = false) (hdel : c.deleted = false)
    (hlt : b.todayStart < b.tomorrowStart) :
    ∀ (L : List Task), (L.map Task.id).Nodup → c ∈ L →
    (updateTask
        (L.filter (fun u => !(purgePred owner b c.title c.category c.id u)))
        c.id
        (fun u => { u with date := b.todayStart, originalTaskId := none })).filter
      (visibleTodayKey owner b c.title c.category)
      = [{ c with date := b.todayStart, originalTaskId := none }] := by
  intro L
  induction L with
  | nil => intro _ h; cases h
  | cons a as ih =>
      intro hnd hmem
      rw [List.map_cons, List.nodup_cons] at hnd
      rcases List.mem_cons.mp hmem with rfl | hmemr
      · have hkeep : (!(purgePred owner b c.title c.category c.id c)) = true := by
          cases hp : purgePred owner b c.title c.category c.id c
          · rfl
          · exfalso
            have := ((purgePred_iff _ _ _ _ _ _).mp hp).2.2.2.2.2
            exact this rfl
        rw [List.filter_cons, if_pos hkeep]
        unfold updateTask
        rw [List.map_cons, if_pos rfl, List.filter_cons]
        have hvis : visibleTodayKey owner b c.title c.category
            ({ c with date := b.todayStart, originalTaskId := none }) = true := by
          rw [visibleTodayKey_iff]
          exact ⟨hu, rfl, rfl, le_refl _, hlt, hmoved, hdel⟩
        rw [hvis]
        simp only [if_true]
        have hrest := filter_visible_none owner b c as
          (fun v hv => fun hEq => hnd.1 (hEq ▸ List.mem_map_of_mem Task.id hv))
        unfold updateTask at hrest
        rw [hrest]
      · have hane : ¬ a.id = c.id := by
          intro hEq
          exact hnd.1 (hEq ▸ List.mem_map_of_mem Task.id hmemr)
        have hrest := ih hnd.2 hmemr
        rw [List.filter_cons]
        by_cases hkeep : (!(purgePred owner b c.title c.category c.id a)) = true
        · rw [if_pos hkeep]
          unfold updateTask
          rw [List.map_cons, if_neg hane, List.filter_cons]
          have hvis : visibleTodayKey owner b c.title c.category a = false := by
            cases hv : visibleTodayKey owner b c.title c.category a
            · rfl
            · exfalso
              have := visible_imp_purge owner b c a hane hv
              rw [this] at hkeep
              simp at hkeep
          rw [hvis]
          simp only [Bool.false_eq_true, if_false]
          unfold updateTask at hrest
          exact hrest
        · rw [if_neg hkeep]
          unfold updateTask at hrest
          exact hrest


theorem markMoved_id (ids : List Nat) (t : Task) : (markMoved ids t).id = t.id := by
  unfold markMoved
  split <;> rfl

theorem tomorrowDupPred_markMoved (owner : Nat) (b : Boundaries) (ti : String)
    (ca : Nat) (ids : List Nat) (v : Task) :
    tomorrowDupPred owner b ti ca (markMoved ids v)
      = tomorrowDupPred owner b ti ca v := by
  unfold markMoved
  split
  · exact tomorrowDupPred_mark owner b ti ca v
  · rfl

theorem moveToTomorrow_WF (s : Store) (owner : Nat) (now : Int) (hWF : WF s) :
    WF (moveToTomorrow s owner now).store := by
  obtain ⟨copies, c1, c2, c3, c4, c5, c6, c7, c8, c9⟩ :=
    moveLoop_spec owner (getDayBoundaries now)
      (todayUncompleted s owner (getDayBoundaries now)) s [] []
      (fun x hx => hWF.1 x (todayUncompleted_mem hx))
      (todayUncompleted_ids_nodup s owner (getDayBoundaries now) hWF.2)
  have hunfold : moveToTomorrow s owner now
      = moveLoop owner (getDayBoundaries now)
          (todayUncompleted s owner (getDayBoundaries now)) s [] [] := rfl
  rw [hunfold]
  constructor
  · intro t ht
    rw [c1] at ht
    rw [c2]
    rcases List.mem_append.mp ht with hl | hr
    · obtain ⟨v, hv, rfl⟩ := List.mem_map.mp hl
      rw [markMoved_id]
      have := hWF.1 v hv
      omega
    · have : t.id ∈ copies.map Task.id := List.mem_map_of_mem Task.id hr
      rw [c5] at this
      rw [List.mem_range'_1] at this
      omega
  · rw [c1]
    rw [List.map_append, List.nodup_append]
    refine ⟨?_, ?_, ?_⟩
    · have : (s.tasks.map (markMoved
          ((todayUncompleted s owner (getDayBoundaries now)).map Task.id))).map Task.id
          = s.tasks.map Task.id := by
        rw [List.map_map]
        exact List.map_congr_left (fun v _ => markMoved_id _ v)
      rw [this]
      exact hWF.2
    · rw [c5]
      exact List.nodup_range' _ _ _ (by norm_num)
    · intro x hx hy
      rw [List.map_map] at hx
      obtain ⟨v, hv, hvx⟩ := List.mem_map.mp hx
      have hvx' : v.id = x := by simpa [markMoved_id] using hvx
      rw [c5, List.mem_range'_1] at hy
      have := hWF.1 v hv
      omega

theorem updateTask_ids (l : List Task) (id : Nat) (f : Task → Task)
    (hf : ∀ u, (f u).id = u.id) :
    (updateTask l id f).map Task.id = l.map Task.id := by
  unfold updateTask
  rw [List.map_map]
  apply List.map_congr_left
  intro t _
  by_cases h : t.id = id
  · simp only [Function.comp]
    rw [if_pos h]
    exact hf t
  · simp only [Function.comp]
    rw [if_neg h]

theorem moveBack_singleton (s1 : Store) (owner : Nat) (now : Int) (c : Task)
    (hWF : WF s1) (hmem : c ∈ s1.tasks) (hu : c.user = owner)
    (hdate : c.date = (getDayBoundaries now).tomorrowStart)
    (hmoved : c.moved = false) (hdel : c.deleted = false) :
    (moveBackToToday s1 owner c.id now).1 = MBOutcome.success
    ∧ (moveBackToToday s1 owner c.id now).2.nextId = s1.nextId
    ∧ WF (moveBackToToday s1 owner c.id now).2
    ∧ (moveBackToToday s1 owner c.id now).2.tasks.filter
        (visibleTodayKey owner (getDayBoundaries now) c.title c.category)
        = [{ c with
              date := (getDayBoundaries now).todayStart,
              originalTaskId := none }]
    ∧ (∀ u ∈ (moveBackToToday s1 owner c.id now).2.tasks,
        u = { c with
                date := (getDayBoundaries now).todayStart,
                originalTaskId := none }
          ∨ (u ∈ s1.tasks ∧ ¬ u.id = c.id)) := by
  have hfind : s1.tasks.find? (fun x => x.id == c.id && x.user == owner)
      = some c := find?_by_id s1.tasks hWF.2 c hmem owner hu
  have hwin : (getDayBoundaries now).tomorrowStart ≤ c.date
      ∧ c.date < addDays (getDayBoundaries now).tomorrowStart 1 := by
    rw [hdate]
    unfold addDays msPerDay
    omega
  have hred : moveBackToToday s1 owner c.id now
      = (MBOutcome.success,
        ⟨updateTask
          (s1.tasks.filter (fun u =>
            !(purgePred owner (getDayBoundaries now) c.title c.category
                c.id u)))
          c.id
          (fun u => { u with
                        date := (getDayBoundaries now).todayStart,
                        originalTaskId := none }),
        s1.nextId⟩) := by
    unfold moveBackToToday
    rw [hfind]
    simp only [if_pos hwin]
  have hlt : (getDayBoundaries now).todayStart
      < (getDayBoundaries now).tomorrowStart := by
    have := (getDayBoundaries_step now).1
    omega
  rw [hred]
  refine ⟨rfl, rfl, ?_, ?_, ?_⟩
  · constructor
    · intro u hu'
      simp only at hu'
      unfold updateTask at hu'
      obtain ⟨v, hv, hvu⟩ := List.mem_map.mp hu'
      have hvid : u.id = v.id := by
        by_cases h : v.id = c.id
        · rw [if_pos h] at hvu
          rw [← hvu]
        · rw [if_neg h] at hvu
          rw [← hvu]
      rw [hvid]
      exact hWF.1 v (List.mem_of_mem_filter hv)
    · simp only
      rw [updateTask_ids]
      · exact hWF.2.sublist ((List.filter_sublist _).map Task.id)
      · intro u
        rfl
  · simp only
    exact filter_visible_moveback owner (getDayBoundaries now) c hu hmoved hdel
      hlt s1.tasks hWF.2 hmem
  · intro u hu'
    simp only at hu'
    unfold updateTask at hu'
    obtain ⟨v, hv, hvu⟩ := List.mem_map.mp hu'
    by_cases h : v.id = c.id
    · left
      rw [if_pos h] at hvu
      have hvc : v = c :=
        List.inj_on_of_nodup_map hWF.2 (List.mem_of_mem_filter hv) hmem h
      rw [← hvu, hvc]
    · right
      rw [if_neg h] at hvu
      rw [← hvu]
      exact ⟨List.mem_of_mem_filter hv, h⟩

theorem any_eq_false_list {α : Type} (p : α → Bool) (l : List α)
    (h : ∀ x ∈ l, p x = false) : l.any p = false := by
  induction l with
  | nil => rfl
  | cons a as ih =>
      simp only [List.any_cons]
      rw [h a (by simp), ih (fun x hx => h x (by simp [hx]))]
      rfl

/-- C2: for an active uncompleted task `t` of today's window, moving all
of today forward and then moving the produced copy `c` back leaves
exactly one visible (not moved, not deleted) task of today's window
carrying `t`'s title, category and priority — the filtered list is
exactly that singleton, so no duplicate is visible — and repeating the
forward/backward cycle on the new copy reproduces the same state shape:
no ghost resurrection. -/
theorem moveForward_moveBackward_roundtrip (s : Store) (owner : Nat)
    (now : Int) (t : Task) (hWF : WF s)
    (ht : t ∈ todayUncompleted s owner (getDayBoundaries now))
    (c : Task) (hc : c ∈ (moveToTomorrow s owner now).newTasks)
    (hcref : c.originalTaskId = some t.id) :
    c.title = t.title ∧ c.category = t.category ∧ c.priority = t.priority
    ∧ ∃ s2, moveBackToToday (moveToTomorrow s owner now).store owner c.id now
          = (MBOutcome.success, s2)
      ∧ s2.tasks.filter
          (visibleTodayKey owner (getDayBoundaries now) t.title t.category)
          = [{ c with
                date := (getDayBoundaries now).todayStart,
                originalTaskId := none }]
      ∧ ∃ c2 ∈ (moveToTomorrow s2 owner now).newTasks,
          c2.originalTaskId = some c.id ∧ c2.title = t.title
          ∧ c2.category = t.category ∧ c2.priority = t.priority
          ∧ ∃ s4, moveBackToToday (moveToTomorrow s2 owner now).store owner
                c2.id now = (MBOutcome.success, s4)
            ∧ s4.tasks.filter
                (visibleTodayKey owner (getDayBoundaries now) t.title t.category)
                = [{ c2 with
                      date := (getDayBoundaries now).todayStart,
                      originalTaskId := none }] := by
  have hlt : (getDayBoundaries now).todayStart
      < (getDayBoundaries now).tomorrowStart := by
    have := (getDayBoundaries_step now).1
    omega
  obtain ⟨copies, c1, c2eq, c3, c4, c5, c6, c7, c8, c9⟩ :=
    moveLoop_spec owner (getDayBoundaries now)
      (todayUncompleted s owner (getDayBoundaries now)) s [] []
      (fun x hx => hWF.1 x (todayUncompleted_mem hx))
      (todayUncompleted_ids_nodup s owner (getDayBoundaries now) hWF.2)
  have hunfold : moveToTomorrow s owner now
      = moveLoop owner (getDayBoundaries now)
          (todayUncompleted s owner (getDayBoundaries now)) s [] [] := rfl
  have hccop : c ∈ copies := by
    rw [hunfold, c3] at hc
    simpa using hc
  obtain ⟨hcdate, hcuser, hccomp, hcmoved, hcdel, hccomplAt, src, hsrcmem,
    hrefsrc, hti0, hde0, hpr0, hca0⟩ := c6 c hccop
  have hsrct : src = t := by
    have hid : src.id = t.id := by
      rw [hcref] at hrefsrc
      exact (Option.some.inj hrefsrc).symm
    exact List.inj_on_of_nodup_map
      (todayUncompleted_ids_nodup s owner (getDayBoundaries now) hWF.2)
      hsrcmem ht hid
  subst hsrct
  have hWF1 := moveToTomorrow_WF s owner now hWF
  have hcmem1 : c ∈ (moveToTomorrow s owner now).store.tasks := by
    rw [hunfold, c1]
    exact List.mem_append_right _ hccop
  obtain ⟨mb1, mb2, mb3, mb4, mb5⟩ := moveBack_singleton
    (moveToTomorrow s owner now).store owner now c hWF1 hcmem1 hcuser hcdate
    hcmoved hcdel
  refine ⟨hti0, hca0, hpr0,
    (moveBackToToday (moveToTomorrow s owner now).store owner c.id now).2,
    Prod.ext mb1 rfl, ?_, ?_⟩
  · rw [← hti0, ← hca0]
    exact mb4
  · -- second cycle
    have hc'mem : ({ c with
        date := (getDayBoundaries now).todayStart,
        originalTaskId := none } : Task)
        ∈ (moveBackToToday (moveToTomorrow s owner now).store owner c.id
            now).2.tasks := by
      apply List.mem_of_mem_filter
        (p := visibleTodayKey owner (getDayBoundaries now) c.title c.category)
      rw [mb4]
      exact List.mem_singleton_self _
    have hc'srcs2 : ({ c with
        date := (getDayBoundaries now).todayStart,
        originalTaskId := none } : Task)
        ∈ todayUncompleted
            (moveBackToToday (moveToTomorrow s owner now).store owner c.id
              now).2 owner (getDayBoundaries now) := by
      apply List.mem_filter.mpr
      refine ⟨hc'mem, ?_⟩
      rw [uncompletedPred_iff]
      exact ⟨hcuser, le_refl _, hlt, hccomp, hcmoved, hcdel⟩
    have huniq2 : ∀ src' ∈ todayUncompleted
        (moveBackToToday (moveToTomorrow s owner now).store owner c.id now).2
        owner (getDayBoundaries now),
        src' ≠ ({ c with
          date := (getDayBoundaries now).todayStart,
          originalTaskId := none } : Task) →
        ¬(src'.title = c.title ∧ src'.category = c.category) := by
      intro src' hsrc' hne hkey
      apply hne
      have hmemf := List.mem_filter.mp hsrc'
      have hp := (uncompletedPred_iff _ _ _).mp hmemf.2
      have hvis : visibleTodayKey owner (getDayBoundaries now) c.title
          c.category src' = true := by
        rw [visibleTodayKey_iff]
        exact ⟨hp.1, hkey.1, hkey.2, hp.2.1, hp.2.2.1, hp.2.2.2.2.1,
          hp.2.2.2.2.2⟩
      have : src' ∈ (moveBackToToday (moveToTomorrow s owner now).store owner
          c.id now).2.tasks.filter
            (visibleTodayKey owner (getDayBoundaries now) c.title c.category) :=
        List.mem_filter.mpr ⟨hmemf.1, hvis⟩
      rw [mb4] at this
      simpa using this
    have hdupfree : (moveBackToToday (moveToTomorrow s owner now).store owner
        c.id now).2.tasks.any
          (tomorrowDupPred owner (getDayBoundaries now) c.title c.category)
        = false := by
      apply any_eq_false_list
      intro u hu2
      rcases mb5 u hu2 with rfl | ⟨hus1, huid⟩
      · cases hdp : tomorrowDupPred owner (getDayBoundaries now) c.title
            c.category ({ c with
              date := (getDayBoundaries now).todayStart,
              originalTaskId := none } : Task)
        · rfl
        · exfalso
          have := (tomorrowDupPred_iff _ _ _ _ _).mp hdp
          have hd := this.2.2.2.1
          simp only at hd
          omega
      · cases hdp : tomorrowDupPred owner (getDayBoundaries now) c.title
            c.category u
        · rfl
        · exfalso
          rw [hunfold, c1] at hus1
          rcases List.mem_append.mp hus1 with hl | hr
          · obtain ⟨v, hv, rfl⟩ := List.mem_map.mp hl
            rw [tomorrowDupPred_markMoved] at hdp
            have hany : s.tasks.any (tomorrowDupPred owner
                (getDayBoundaries now) c.title c.category) = true :=
              List.any_eq_true.mpr ⟨v, hv, hdp⟩
            have hfalse := c7 c hccop src ht hcref
            rw [← hti0, ← hca0] at hfalse
            rw [hfalse] at hany
            cases hany
          · have hune : u ≠ c := fun hEq => huid (by rw [hEq])
            have hsymm : Symmetric (fun a c : Task =>
                ¬(a.title = c.title ∧ a.category = c.category)) := by
              intro x y h hk
              exact h ⟨hk.1.symm, hk.2.symm⟩
            have hR := List.Pairwise.forall hsymm c8 hr hccop hune
            have := (tomorrowDupPred_iff _ _ _ _ _).mp hdp
            exact hR ⟨this.2.1, this.2.2.1⟩
    obtain ⟨copies2, d1, d2, d3, d4, d5, d6, d7, d8, d9⟩ :=
      moveLoop_spec owner (getDayBoundaries now)
        (todayUncompleted (moveBackToToday (moveToTomorrow s owner now).store
          owner c.id now).2 owner (getDayBoundaries now))
        (moveBackToToday (moveToTomorrow s owner now).store owner c.id now).2
        [] []
        (fun x hx => mb3.1 x (todayUncompleted_mem hx))
        (todayUncompleted_ids_nodup _ owner (getDayBoundaries now) mb3.2)
    obtain ⟨c2, hc2cop, hc2ref⟩ := d9 _ hc'srcs2 hdupfree huniq2
    have hunfold2 : moveToTomorrow (moveBackToToday
        (moveToTomorrow s owner now).store owner c.id now).2 owner now
        = moveLoop owner (getDayBoundaries now)
            (todayUncompleted (moveBackToToday (moveToTomorrow s owner
              now).store owner c.id now).2 owner (getDayBoundaries now))
            (moveBackToToday (moveToTomorrow s owner now).store owner c.id
              now).2 [] [] := rfl
    obtain ⟨hc2date, hc2user, hc2comp, hc2moved, hc2del, hc2complAt, src2,
      hsrc2mem, href2, hti2, hde2, hpr2, hca2⟩ := d6 c2 hc2cop
    have hsrc2c' : src2 = ({ c with
        date := (getDayBoundaries now).todayStart,
        originalTaskId := none } : Task) := by
      have hid2 : src2.id = c.id := by
        rw [hc2ref] at href2
        exact (Option.some.inj href2).symm
      exact List.inj_on_of_nodup_map
        (todayUncompleted_ids_nodup _ owner (getDayBoundaries now) mb3.2)
        hsrc2mem hc'srcs2 hid2
    have hWF3 := moveToTomorrow_WF _ owner now mb3
    have hc2mem3 : c2 ∈ (moveToTomorrow (moveBackToToday
        (moveToTomorrow s owner now).store owner c.id now).2 owner
          now).store.tasks := by
      rw [hunfold2, d1]
      exact List.mem_append_right _ hc2cop
    obtain ⟨nb1, nb2, nb3, nb4, nb5⟩ := moveBack_singleton
      (moveToTomorrow (moveBackToToday (moveToTomorrow s owner now).store
        owner c.id now).2 owner now).store owner now c2 hWF3 hc2mem3 hc2user
      hc2date hc2moved hc2del
    refine ⟨c2, ?_, hc2ref, ?_, ?_, ?_, _, Prod.ext nb1 rfl, ?_⟩
    · rw [hunfold2, d3]
      simpa using hc2cop
    · rw [hti2, hsrc2c']
      exact hti0
    · rw [hca2, hsrc2c']
      exact hca0
    · rw [hpr2, hsrc2c']
      exact hpr0
    · have h1 : c2.title = src.title := by
        rw [hti2, hsrc2c']
        exact hti0
      have h2 : c2.category = src.category := by
        rw [hca2, hsrc2c']
        exact hca0
      rw [← h1, ← h2]
      exact nb4


theorem taskSaveValid_template (st : Store) (owner : Nat) (b : Boundaries)
    (tmpl : Template) :
    taskSaveValid (newTaskFromTemplate st owner b tmpl)
      = templateTaskValid tmpl := rfl

theorem updateTemplate_mem {ts : List Template} {tm : Template}
    (h : tm ∈ ts) (id : Nat) (f : Template → Template) (hid : tm.id = id) :
    f tm ∈ updateTemplate ts id f := by
  unfold updateTemplate
  have hm := List.mem_map_of_mem (fun x => if x.id = id then f x else x) h
  simp only [] at hm
  rwa [if_pos hid] at hm

theorem updateTemplate_mem_ne {ts : List Template} {tm : Template}
    (h : tm ∈ ts) (id : Nat) (f : Template → Template) (hne : ¬ tm.id = id) :
    tm ∈ updateTemplate ts id f := by
  unfold updateTemplate
  have hm := List.mem_map_of_mem (fun x => if x.id = id then f x else x) h
  simp only [] at hm
  rwa [if_neg hne] at hm

theorem ppLoop_templates_preserve (owner : Nat) (now : Int) (b : Boundaries) :
    ∀ (pending : List Template) (st : Store) (tms : List Template)
      (acc : List (String × PPStatus)) (tm : Template),
    tm ∈ tms → tm.id ∉ pending.map Template.id →
    tm ∈ (ppLoop owner now b pending st tms acc).templates := by
  intro pending
  induction pending with
  | nil => intro st tms acc tm h _; exact h
  | cons tmpl rest ih =>
      intro st tms acc tm h hni
      have h1 : ¬ tm.id = tmpl.id := fun hEq => hni (by simp [hEq])
      have h2 : tm.id ∉ rest.map Template.id := fun hEq => hni (by simp [hEq])
      cases hdup : st.tasks.any
          (todayDupPred owner b tmpl.taskTemplate.title tmpl.category) with
      | true =>
          have hred : ppLoop owner now b (tmpl :: rest) st tms acc
              = ppLoop owner now b rest st
                  (updateTemplate tms tmpl.id (fun _ => advanceTemplate tmpl now))
                  (acc ++ [(tmpl.name, PPStatus.skipped)]) := by
            simp only [ppLoop, hdup]
          rw [hred]
          exact ih st _ _ tm (updateTemplate_mem_ne h tmpl.id _ h1) h2
      | false =>
          cases hval : taskSaveValid (newTaskFromTemplate st owner b tmpl) with
          | true =>
              have hred : ppLoop owner now b (tmpl :: rest) st tms acc
                  = ppLoop owner now b rest
                      ⟨st.tasks ++ [newTaskFromTemplate st owner b tmpl],
                        st.nextId + 1⟩
                      (updateTemplate tms tmpl.id
                        (fun _ => advanceTemplate tmpl now))
                      (acc ++ [(tmpl.name, PPStatus.created)]) := by
                simp only [ppLoop, hdup, hval]
              rw [hred]
              exact ih _ _ _ tm (updateTemplate_mem_ne h tmpl.id _ h1) h2
          | false =>
              have hred : ppLoop owner now b (tmpl :: rest) st tms acc
                  = ppLoop owner now b rest st tms
                      (acc ++ [(tmpl.name, PPStatus.errored)]) := by
                simp only [ppLoop, hdup, hval]
              rw [hred]
              exact ih st tms _ tm h h2

theorem ppLoop_results_prefix (owner : Nat) (now : Int) (b : Boundaries) :
    ∀ (pending : List Template) (st : Store) (tms : List Template)
      (acc : List (String × PPStatus)),
    ∃ resTail, (ppLoop owner now b pending st tms acc).results = acc ++ resTail := by
  intro pending
  induction pending with
  | nil => intro st tms acc; exact ⟨[], by simp [ppLoop]⟩
  | cons tmpl rest ih =>
      intro st tms acc
      cases hdup : st.tasks.any
          (todayDupPred owner b tmpl.taskTemplate.title tmpl.category) with
      | true =>
          have hred : ppLoop owner now b (tmpl :: rest) st tms acc
              = ppLoop owner now b rest st
                  (updateTemplate tms tmpl.id (fun _ => advanceTemplate tmpl now))
                  (acc ++ [(tmpl.name, PPStatus.skipped)]) := by
            simp only [ppLoop, hdup]
          rw [hred]
          obtain ⟨tail, htail⟩ := ih st _ (acc ++ [(tmpl.name, PPStatus.skipped)])
          exact ⟨(tmpl.name, PPStatus.skipped) :: tail, by rw [htail]; simp⟩
      | false =>
          cases hval : taskSaveValid (newTaskFromTemplate st owner b tmpl) with
          | true =>
              have hred : ppLoop owner now b (tmpl :: rest) st tms acc
                  = ppLoop owner now b rest
                      ⟨st.tasks ++ [newTaskFromTemplate st owner b tmpl],
                        st.nextId + 1⟩
                      (updateTemplate tms tmpl.id
                        (fun _ => advanceTemplate tmpl now))
                      (acc ++ [(tmpl.name, PPStatus.created)]) := by
                simp only [ppLoop, hdup, hval]
              rw [hred]
              obtain ⟨tail, htail⟩ := ih _ _ (acc ++ [(tmpl.name, PPStatus.created)])
              exact ⟨(tmpl.name, PPStatus.created) :: tail, by rw [htail]; simp⟩
          | false =>
              have hred : ppLoop owner now b (tmpl :: rest) st tms acc
                  = ppLoop owner now b rest st tms
                      (acc ++ [(tmpl.name, PPStatus.errored)]) := by
                simp only [ppLoop, hdup, hval]
              rw [hred]
              obtain ⟨tail, htail⟩ := ih st tms (acc ++ [(tmpl.name, PPStatus.errored)])
              exact ⟨(tmpl.name, PPStatus.errored) :: tail, by rw [htail]; simp⟩

theorem ppLoop_spec (owner : Nat) (now : Int) (b : Boundaries) :
    ∀ (pending : List Template) (st : Store) (tms : List Template)
      (acc : List (String × PPStatus)),
    (∀ tm ∈ pending, tm ∈ tms) →
    (pending.map Template.id).Nodup →
    ∃ newTasks : List Task,
      (ppLoop owner now b pending st tms acc).store.tasks
          = st.tasks ++ newTasks
      ∧ (ppLoop owner now b pending st tms acc).results.map Prod.fst
          = acc.map Prod.fst ++ pending.map Template.name
      ∧ (∀ c ∈ newTasks, c.user = owner ∧ c.date = b.todayStart
          ∧ c.completed = false ∧ c.moved = false ∧ c.deleted = false
          ∧ c.originalTaskId = none
          ∧ ∃ tmpl ∈ pending, c.title = tmpl.taskTemplate.title
              ∧ c.description = tmpl.taskTemplate.description
              ∧ c.priority = tmpl.taskTemplate.priority
              ∧ c.category = tmpl.category)
      ∧ (∀ c ∈ newTasks,
          st.tasks.any (todayDupPred owner b c.title c.category) = false)
      ∧ (∀ tmpl ∈ pending,
          st.tasks.any (todayDupPred owner b tmpl.taskTemplate.title
            tmpl.category) = true →
          (tmpl.name, PPStatus.skipped)
              ∈ (ppLoop owner now b pending st tms acc).results
          ∧ advanceTemplate tmpl now
              ∈ (ppLoop owner now b pending st tms acc).templates)
      ∧ (∀ tmpl ∈ pending,
          st.tasks.any (todayDupPred owner b tmpl.taskTemplate.title
            tmpl.category) = false →
          (∀ tmpl' ∈ pending, tmpl' ≠ tmpl →
            ¬(tmpl'.taskTemplate.title = tmpl.taskTemplate.title
              ∧ tmpl'.category = tmpl.category)) →
          (templateTaskValid tmpl = true →
            (tmpl.name, PPStatus.created)
                ∈ (ppLoop owner now b pending st tms acc).results
            ∧ advanceTemplate tmpl now
                ∈ (ppLoop owner now b pending st tms acc).templates
            ∧ ∃ c ∈ newTasks, c.title = tmpl.taskTemplate.title
                ∧ c.description = tmpl.taskTemplate.description
                ∧ c.priority = tmpl.taskTemplate.priority
                ∧ c.category = tmpl.category)
          ∧ (templateTaskValid tmpl = false →
            (tmpl.name, PPStatus.errored)
                ∈ (ppLoop owner now b pending st tms acc).results
            ∧ tmpl ∈ (ppLoop owner now b pending st tms acc).templates)) := by
  intro pending
  induction pending with
  | nil =>
      intro st tms acc _ _
      exact ⟨[], by simp [ppLoop], by simp [ppLoop], by simp, by simp,
        by simp, by simp⟩
  | cons tmpl rest ih =>
      intro st tms acc hsub hnd
      rw [List.map_cons, List.nodup_cons] at hnd
      cases hdup : st.tasks.any
          (todayDupPred owner b tmpl.taskTemplate.title tmpl.category) with
      | true =>
          have hred : ppLoop owner now b (tmpl :: rest) st tms acc
              = ppLoop owner now b rest st
                  (updateTemplate tms tmpl.id (fun _ => advanceTemplate tmpl now))
                  (acc ++ [(tmpl.name, PPStatus.skipped)]) := by
            simp only [ppLoop, hdup]
          rw [hred]
          obtain ⟨newTasks, e1, e3, e4, e5, e6, e7⟩ := ih st
            (updateTemplate tms tmpl.id (fun _ => advanceTemplate tmpl now))
            (acc ++ [(tmpl.name, PPStatus.skipped)])
            (fun tm htm => updateTemplate_mem_ne (hsub tm (by simp [htm]))
              tmpl.id _
              (fun hEq => hnd.1 (hEq ▸ List.mem_map_of_mem Template.id htm)))
            hnd.2
          refine ⟨newTasks, e1, ?_, ?_, e5, ?_, ?_⟩
          · rw [e3]
            simp
          · intro c hc
            obtain ⟨f1, f2, f3, f4, f5, f6, tm, htm, g1, g2, g3, g4⟩ := e4 c hc
            exact ⟨f1, f2, f3, f4, f5, f6, tm, by simp [htm], g1, g2, g3, g4⟩
          · intro tm htm hdup'
            rcases List.mem_cons.mp htm with rfl | htmr
            · constructor
              · obtain ⟨tail, htail⟩ := ppLoop_results_prefix owner now b rest
                  st _ (acc ++ [(tm.name, PPStatus.skipped)])
                rw [htail]
                simp
              · apply ppLoop_templates_preserve
                · exact updateTemplate_mem (hsub tm (by simp)) tm.id _ rfl
                · intro hmem
                  exact hnd.1 hmem
            · exact e6 tm htmr hdup'
          · intro tm htm hdup' huniq
            rcases List.mem_cons.mp htm with rfl | htmr
            · rw [hdup] at hdup'
              cases hdup'
            · have := e7 tm htmr hdup'
                (fun tm' htm' hne => huniq tm' (by simp [htm']) hne)
              exact this
      | false =>
          cases hval : taskSaveValid (newTaskFromTemplate st owner b tmpl) with
          | true =>
              have hred : ppLoop owner now b (tmpl :: rest) st tms acc
                  = ppLoop owner now b rest
                      ⟨st.tasks ++ [newTaskFromTemplate st owner b tmpl],
                        st.nextId + 1⟩
                      (updateTemplate tms tmpl.id
                        (fun _ => advanceTemplate tmpl now))
                      (acc ++ [(tmpl.name, PPStatus.created)]) := by
                simp only [ppLoop, hdup, hval]
              rw [hred]
              obtain ⟨newTasks, e1, e3, e4, e5, e6, e7⟩ := ih
                ⟨st.tasks ++ [newTaskFromTemplate st owner b tmpl],
                  st.nextId + 1⟩
                (updateTemplate tms tmpl.id (fun _ => advanceTemplate tmpl now))
                (acc ++ [(tmpl.name, PPStatus.created)])
                (fun tm htm => updateTemplate_mem_ne (hsub tm (by simp [htm]))
                  tmpl.id _
                  (fun hEq => hnd.1 (hEq ▸ List.mem_map_of_mem Template.id htm)))
                hnd.2
              refine ⟨newTaskFromTemplate st owner b tmpl :: newTasks, ?_, ?_,
                ?_, ?_, ?_, ?_⟩
              · rw [e1]
                simp
              · rw [e3]
                simp
              · intro c hc
                rcases List.mem_cons.mp hc with rfl | hcr
                · exact ⟨rfl, rfl, rfl, rfl, rfl, rfl, tmpl, by simp, rfl, rfl,
                    rfl, rfl⟩
                · obtain ⟨f1, f2, f3, f4, f5, f6, tm, htm, g1, g2, g3, g4⟩ :=
                    e4 c hcr
                  exact ⟨f1, f2, f3, f4, f5, f6, tm, by simp [htm], g1, g2, g3,
                    g4⟩
              · intro c hc
                rcases List.mem_cons.mp hc with rfl | hcr
                · exact hdup
                · have := e5 c hcr
                  simp only [List.any_append] at this
                  rw [Bool.or_eq_false_iff] at this
                  exact this.1
              · intro tm htm hdup'
                rcases List.mem_cons.mp htm with rfl | htmr
                · rw [hdup] at hdup'
                  cases hdup'
                · have hst' : (⟨st.tasks ++ [newTaskFromTemplate st owner b
                      tmpl], st.nextId + 1⟩ : Store).tasks.any
                      (todayDupPred owner b tm.taskTemplate.title tm.category)
                      = true := by
                    simp only [List.any_append]
                    rw [hdup']
                    rfl
                  exact e6 tm htmr hst'
              · intro tm htm hdup' huniq
                rcases List.mem_cons.mp htm with rfl | htmr
                · constructor
                  · intro _
                    refine ⟨?_, ?_, ?_⟩
                    · obtain ⟨tail, htail⟩ := ppLoop_results_prefix owner now b
                        rest _ _ (acc ++ [(tm.name, PPStatus.created)])
                      rw [htail]
                      simp
                    · apply ppLoop_templates_preserve
                      · exact updateTemplate_mem (hsub tm (by simp)) tm.id _ rfl
                      · intro hmem
                        exact hnd.1 hmem
                    · exact ⟨newTaskFromTemplate st owner b tm, by simp, rfl,
                        rfl, rfl, rfl⟩
                  · intro hvalf
                    rw [taskSaveValid_template] at hval
                    rw [hval] at hvalf
                    cases hvalf
                · have htmne : ¬ (tm.taskTemplate.title
                      = tmpl.taskTemplate.title ∧ tm.category = tmpl.category) := by
                    have := huniq tmpl (by simp)
                      (fun hEq => hnd.1 (hEq ▸ List.mem_map_of_mem Template.id
                        htmr))
                    intro hk
                    exact this ⟨hk.1.symm, hk.2.symm⟩
                  have hstf : (⟨st.tasks ++ [newTaskFromTemplate st owner b
                      tmpl], st.nextId + 1⟩ : Store).tasks.any
                      (todayDupPred owner b tm.taskTemplate.title tm.category)
                      = false := by
                    show (st.tasks ++ [newTaskFromTemplate st owner b
                      tmpl]).any _ = false
                    rw [List.any_append, hdup', Bool.false_or]
                    simp only [List.any_cons, List.any_nil, Bool.or_false]
                    rw [Bool.eq_false_iff]
                    intro hcontra
                    rw [todayDupPred_iff] at hcontra
                    exact htmne ⟨hcontra.2.1.symm, hcontra.2.2.1.symm⟩
                  have hres := e7 tm htmr hstf
                    (fun tm' htm' hne => huniq tm' (by simp [htm']) hne)
                  refine ⟨fun hv => ?_, hres.2⟩
                  obtain ⟨hr, ht, c, hc, hcs⟩ := hres.1 hv
                  exact ⟨hr, ht, c, List.mem_cons_of_mem _ hc, hcs⟩
          | false =>
              have hred : ppLoop owner now b (tmpl :: rest) st tms acc
                  = ppLoop owner now b rest st tms
                      (acc ++ [(tmpl.name, PPStatus.errored)]) := by
                simp only [ppLoop, hdup, hval]
              rw [hred]
              obtain ⟨newTasks, e1, e3, e4, e5, e6, e7⟩ := ih st tms
                (acc ++ [(tmpl.name, PPStatus.errored)])
                (fun tm htm => hsub tm (by simp [htm])) hnd.2
              refine ⟨newTasks, e1, ?_, ?_, e5, ?_, ?_⟩
              · rw [e3]
                simp
              · intro c hc
                obtain ⟨f1, f2, f3, f4, f5, f6, tm, htm, g1, g2, g3, g4⟩ :=
                  e4 c hc
                exact ⟨f1, f2, f3, f4, f5, f6, tm, by simp [htm], g1, g2, g3,
                  g4⟩
              · intro tm htm hdup2
                rcases List.mem_cons.mp htm with rfl | htmr
                · rw [hdup] at hdup2
                  cases hdup2
                · exact e6 tm htmr hdup2
              · intro tm htm hdup2 huniq
                rcases List.mem_cons.mp htm with rfl | htmr
                · constructor
                  · intro hv
                    rw [taskSaveValid_template] at hval
                    rw [hval] at hv
                    cases hv
                  · intro hvf
                    refine ⟨?_, ?_⟩
                    · obtain ⟨tail, htail⟩ := ppLoop_results_prefix owner now
                        b rest st tms (acc ++ [(tm.name, PPStatus.errored)])
                      rw [htail]
                      simp
                    · apply ppLoop_templates_preserve
                      · exact hsub tm (by simp)
                      · intro hmem
                        exact hnd.1 hmem
                · exact e7 tm htmr hdup2
                    (fun tm' htm' hne => huniq tm' (by simp [htm']) hne)

/-- C5: `processPending` selects exactly the caller's active templates
with `nextRun <= now`; a due template whose (title, category) already has
a live task in today's window is reported skipped and creates nothing,
otherwise one task is created carrying the template's title, description,
priority and category, dated to today's window start; in both of those
branches the template's schedule is advanced (`lastRun = now`, `nextRun`
recomputed by `calculateNextRun`, `createdTasksCount` incremented), while
a template whose task fails validation is reported as a per-item error,
is left unchanged, and does not abort the remaining templates (every due
template contributes exactly one result entry). -/
theorem processPending_spec (s : Store) (templates : List Template)
    (owner : Nat) (now : Int)
    (hnd : (templates.map Template.id).Nodup) :
    (∀ tm : Template,
      tm ∈ templates.filter (templateDue owner now)
        ↔ tm ∈ templates ∧ tm.user = owner ∧ tm.isActive = true
            ∧ tm.nextRun ≤ now)
    ∧ (processPending s templates owner now).results.map Prod.fst
        = (templates.filter (templateDue owner now)).map Template.name
    ∧ (∀ tmpl : Template, (advanceTemplate tmpl now).lastRun = some now
        ∧ (advanceTemplate tmpl now).nextRun
            = calculateNextRun tmpl.recurrence now
        ∧ (advanceTemplate tmpl now).createdTasksCount
            = tmpl.createdTasksCount + 1)
    ∧ ∃ newTasks : List Task,
        (processPending s templates owner now).store.tasks
            = s.tasks ++ newTasks
        ∧ (∀ c ∈ newTasks, c.user = owner
            ∧ c.date = (getDayBoundaries now).todayStart
            ∧ c.completed = false ∧ c.moved = false ∧ c.deleted = false
            ∧ c.originalTaskId = none
            ∧ ∃ tmpl ∈ templates.filter (templateDue owner now),
                c.title = tmpl.taskTemplate.title
                ∧ c.description = tmpl.taskTemplate.description
                ∧ c.priority = tmpl.taskTemplate.priority
                ∧ c.category = tmpl.category)
        ∧ (∀ c ∈ newTasks,
            s.tasks.any (todayDupPred owner (getDayBoundaries now) c.title
              c.category) = false)
        ∧ (∀ tmpl ∈ templates.filter (templateDue owner now),
            s.tasks.any (todayDupPred owner (getDayBoundaries now)
              tmpl.taskTemplate.title tmpl.category) = true →
            (tmpl.name, PPStatus.skipped)
                ∈ (processPending s templates owner now).results
            ∧ advanceTemplate tmpl now
                ∈ (processPending s templates owner now).templates)
        ∧ (∀ tmpl ∈ templates.filter (templateDue owner now),
            s.tasks.any (todayDupPred owner (getDayBoundaries now)
              tmpl.taskTemplate.title tmpl.category) = false →
            (∀ tmpl' ∈ templates.filter (templateDue owner now), tmpl' ≠ tmpl →
              ¬(tmpl'.taskTemplate.title = tmpl.taskTemplate.title
                ∧ tmpl'.category = tmpl.category)) →
            (templateTaskValid tmpl = true →
              (tmpl.name, PPStatus.created)
                  ∈ (processPending s templates owner now).results
              ∧ advanceTemplate tmpl now
                  ∈ (processPending s templates owner now).templates
              ∧ ∃ c ∈ newTasks, c.title = tmpl.taskTemplate.title
                  ∧ c.description = tmpl.taskTemplate.description
                  ∧ c.priority = tmpl.taskTemplate.priority
                  ∧ c.category = tmpl.category)
            ∧ (templateTaskValid tmpl = false →
              (tmpl.name, PPStatus.errored)
                  ∈ (processPending s templates owner now).results
              ∧ tmpl ∈ (processPending s templates owner now).templates)) := by
  have hpp : processPending s templates owner now
      = ppLoop owner now (getDayBoundaries now)
          (templates.filter (templateDue owner now)) s templates [] := rfl
  have hsubl : ((templates.filter (templateDue owner now)).map
      Template.id).Sublist (templates.map Template.id) :=
    (List.filter_sublist templates).map Template.id
  obtain ⟨newTasks, e1, e3, e4, e5, e6, e7⟩ :=
    ppLoop_spec owner now (getDayBoundaries now)
      (templates.filter (templateDue owner now)) s templates []
      (fun tm htm => (List.mem_filter.mp htm).1) (hnd.sublist hsubl)
  refine ⟨?_, ?_, ?_, newTasks, ?_, e4, e5, ?_, ?_⟩
  · intro tm
    rw [List.mem_filter]
    unfold templateDue
    simp [Bool.and_eq_true, beq_iff_eq, decide_eq_true_eq, and_assoc]
  · rw [hpp, e3]
    simp
  · intro tmpl
    exact ⟨rfl, rfl, rfl⟩
  · rw [hpp, e1]
  · intro tmpl htm hdup
    rw [hpp]
    exact e6 tmpl htm hdup
  · intro tmpl htm hdup huniq
    rw [hpp]
    exact e7 tmpl htm hdup huniq

theorem processPending_spec_witness :
    ([wTemplate].map Template.id).Nodup
    ∧ (processPending cexStore [wTemplate] 7 540000000).results.map Prod.fst
        = ([wTemplate].filter (templateDue 7 540000000)).map Template.name :=
  ⟨by decide,
    (processPending_spec cexStore [wTemplate] 7 540000000 (by decide)).2.1⟩

theorem moveForward_moveBackward_roundtrip_witness :
    WF rtStore
    ∧ rtTask ∈ todayUncompleted rtStore 7 (getDayBoundaries 540000000)
    ∧ rtCopy ∈ (moveToTomorrow rtStore 7 540000000).newTasks
    ∧ rtCopy.originalTaskId = some rtTask.id
    ∧ rtCopy.title = rtTask.title :=
  ⟨⟨by decide, by decide⟩, by decide, by decide, by decide,
    (moveForward_moveBackward_roundtrip rtStore 7 540000000 rtTask
      ⟨by decide, by decide⟩ (by decide) rtCopy (by decide) (by decide)).1⟩

theorem moveToTomorrow_spec_witness :
    WF rtStore
    ∧ (moveToTomorrow rtStore 7 540000000).movedTaskIds
        = (todayUncompleted rtStore 7
            (getDayBoundaries 540000000)).map Task.id :=
  ⟨⟨by decide, by decide⟩,
    (moveToTomorrow_spec rtStore 7 540000000 ⟨by decide, by decide⟩).1⟩

theorem moveBackToToday_spec_witness :
    (pStore.tasks.find? (fun t => t.id == 1 && t.user == 7) = some pTask)
    ∧ (moveBackToToday pStore 7 1 540000000).1 = MBOutcome.success :=
  ⟨by decide,
    ((moveBackToToday_spec pStore 7 1 540000000).2.2.2 pTask (by decide)
      (by decide) (by decide)).1⟩

theorem calculateNextRun_examples_witness :
    getDay 540000000 = 3
    ∧ calculateNextRun ⟨RecType.weekly, 1, some [1], none, ⟨5, 0⟩⟩ 540000000
        = (dayOf 540000000 + 5) * 86400000 + 18000000 :=
  ⟨by decide, calculateNextRun_examples.2.2 540000000 (by decide)⟩

theorem updateTaskRoute_spec_witness :
    (wStoreR.tasks.find? (fun x => x.id == 10 && x.user == 7)
        = some ⟨10, 7, "a", "", 2, 3, 0, false, none, false, false, none⟩)
    ∧ ∃ s' rt, updateTaskRoute wStoreR [] 7 10 wUpd 540000000
        = UpdateResult.ok s' rt ∧ rt.completedAt = some 540000000
        ∧ rt.completed = true := by
  refine ⟨by decide, ?_⟩
  obtain ⟨s', rt, h1, h2, h3⟩ := updateTaskRoute_spec wStoreR [] 7 10 wUpd
    540000000 ⟨10, 7, "a", "", 2, 3, 0, false, none, false, false, none⟩
    (by decide) (by decide)
  obtain ⟨hca, hcb⟩ := h2 rfl rfl
  exact ⟨s', rt, h1, hca, hcb⟩

theorem moveBack_purge_ignores_flags_witness :
    (pStore.tasks.find? (fun t => t.id == 1 && t.user == 7) = some pTask)
    ∧ pDup ∈ pStore.tasks ∧ pDup.completed = true ∧ pDup.deleted = true
    ∧ pDup ∉ (moveBackToToday pStore 7 1 540000000).2.tasks :=
  ⟨by decide, by decide, by decide, by decide,
    moveBack_purge_ignores_flags pStore 7 1 540000000 pTask (by decide)
      (by decide) (by decide) pDup (by decide) (by decide) (by decide)
      (by decide) (by decide) (by decide) (by decide)⟩

end Entropy
